import Mathlib

/-!
Verification of the `c2nes/ramsey` permutation-search engine
(`src/extend_graph.c`, `src/find_cliques.c`) against its specification.

The C sources are shallowly embedded below: machine integers become `Nat`
(with explicit `% 2 ^ w` where overflow matters), the in-place doubly linked
permutation list becomes a `List Nat` of surviving values (plus, for the
regroup analysis, an explicit slot arena with index-valued pointers),
and each loop becomes a structurally or fuel-recursive function.
-/

namespace Ramsey

/-- `PERM_BLOCK_SIZE` from `extend_graph.c` (prefix width `B`). -/
def PERM_BLOCK_SIZE : Nat := 26

/-- `CLIQUE_N` from `extend_graph.c`. -/
def CLIQUE_N : Nat := 5

/-- A candidate five-clique as stored in `five_cliques[i]` in `main`:
`members` are the four base-graph vertices `clique[0..3]`, and `cc` is the
stored color `clique[5]` (`false` = red 0, `true` = blue 1).  The new vertex
`clique[4] = order` is implicit (it is never read by `perm_mask` or
`is_monochromatic`'s edge loop). -/
structure FiveClique where
  members : List Nat
  cc : Bool
deriving DecidableEq, Repr

/-- The mask match test from `next_perm_with_mask` / `perm_mask`:
`((p->perm ^ x_mask) & mask) == mask`. -/
def maskMatch (mask xmask v : Nat) : Bool :=
  ((v ^^^ xmask) &&& mask) = mask

/-- The mask-building loop at the top of `perm_mask`: for each of the
`CLIQUE_N - 1` member vertices, bail out (`return false`) if
`clique[i] > PERM_BLOCK_SIZE`, else or `1 << clique[i]` into the mask.
`none` models the early `return false`. -/
def build_mask : List Nat → Option Nat
  | [] => some 0
  | v :: rest =>
    if v > PERM_BLOCK_SIZE then none
    else (build_mask rest).map (fun m => m ||| (1 <<< v))

/-- The walk performed by `perm_mask` over the surviving permutation list
(via `next_perm_with_mask` to skip non-matching nodes and `perm_remove` to
unlink matching ones): every node whose value matches the mask test is
unlinked, every other node survives in place. -/
def perm_walk (mask xmask : Nat) : List Nat → List Nat
  | [] => []
  | v :: rest =>
    if maskMatch mask xmask v then perm_walk mask xmask rest
    else v :: perm_walk mask xmask rest

/-- `perm_mask` from `extend_graph.c`: builds the clique's mask (bailing out
with `false` on a member `> PERM_BLOCK_SIZE`), sets `x_mask = mask` for a
red (`cc = 0`) clique and `0` for a blue one, returns `false` untouched when
the list is empty (`perm_head == NULL`), and otherwise removes every
surviving value matching `((v ^ x_mask) & mask) == mask`, returning `true`.
The returned pair is (return value, surviving list). -/
def perm_mask (cl : FiveClique) (l : List Nat) : Bool × List Nat :=
  match build_mask cl.members with
  | none => (false, l)
  | some mask =>
    let xmask := if cl.cc then 0 else mask
    match l with
    | [] => (false, l)
    | _ :: _ => (true, perm_walk mask xmask l)

/-- Applying the `perm_mask` passes of a list of candidate cliques in order,
as the filtering loop in `main` does (the surviving list threads through). -/
def apply_masks (cs : List FiveClique) (l : List Nat) : List Nat :=
  cs.foldl (fun acc cl => (perm_mask cl acc).2) l

/-- The per-value "keep" predicate realised by one `perm_mask` pass:
a value survives the pass of clique `cl` unless `cl`'s mask was buildable
and the value matches the mask test. -/
def keepsValue (cl : FiveClique) (v : Nat) : Bool :=
  match build_mask cl.members with
  | none => true
  | some mask => !maskMatch mask (if cl.cc then 0 else mask) v

/-- The clique bit mask, written directly: bit `v` set for every member `v`
(the or-accumulation of the loop in `perm_mask`, without the bail-out). -/
def mask_of : List Nat → Nat
  | [] => 0
  | v :: rest => mask_of rest ||| (1 <<< v)

/-- `'0'`/`'1'` classification used by both `load_matrix` variants; other
bytes are ignored by the readers. -/
def charBit (c : Char) : Option Bool :=
  if c = '0' then some false else if c = '1' then some true else none

/-- The read loop of `load_matrix` in `extend_graph.c`: `i` counts stored
entries, `acc` is the flat matrix so far.  While `i < order²`, a `'0'`/`'1'`
byte is stored and `i` incremented, any other byte is skipped; once
`i = order²`, a further `'0'`/`'1'` byte triggers the `i++; break` path and
the subsequent `c != EOF || i != order²` check fails (modelled `none`);
at end of stream the same check demands `i = order²`. -/
def load_go (order : Nat) : List Char → Nat → List Bool → Option (List Bool)
  | [], i, acc => if i = order * order then some acc else none
  | c :: rest, i, acc =>
    if i < order * order then
      match charBit c with
      | some b => load_go order rest (i + 1) (acc ++ [b])
      | none => load_go order rest i acc
    else
      match charBit c with
      | some _ => none
      | none => load_go order rest i acc

/-- `load_matrix` from `extend_graph.c` (minus the I/O plumbing): the input
stream is the list of bytes of the file, the result is the flat row-major
matrix, `none` models the fatal `"invalid matrix size"` exit. -/
def load_matrix (order : Nat) (input : List Char) : Option (List Bool) :=
  load_go order input 0 []

/-- The read loop of `load_matrix` in `find_cliques.c`: every `'0'`/`'1'`
byte of the whole stream is stored (the C code has no bound check here) and
the final check demands exactly `order²` stored entries. -/
def load_go_fc (order : Nat) : List Char → Nat → List Bool → Option (List Bool)
  | [], i, acc => if i = order * order then some acc else none
  | c :: rest, i, acc =>
    match charBit c with
    | some b => load_go_fc order rest (i + 1) (acc ++ [b])
    | none => load_go_fc order rest i acc

/-- `load_matrix` from `find_cliques.c` (minus the I/O plumbing). -/
def load_matrix_fc (order : Nat) (input : List Char) : Option (List Bool) :=
  load_go_fc order input 0 []

/-- `expand` from `extend_graph.c`: grow an `n × n` matrix to
`(n+1) × (n+1)` with the old entries at their positions and the new row and
column zero-initialized (`false`). -/
def expand (matrix : Nat → Nat → Bool) (n : Nat) : Nat → Nat → Bool :=
  fun i j => if i < n ∧ j < n then matrix i j else false

/-- The matrix as observed by `dump_graph` during the search: row
`order - 1` is the new vertex's row buffer (which `next_graph` mutates),
all other rows come from the expanded base matrix.  No code path mirrors
the row into column `order - 1`. -/
def matrixWithRow (matrix : Nat → Nat → Bool) (order : Nat)
    (row : List Bool) : Nat → Nat → Bool :=
  fun i j => if i = order - 1 then row.getD j false else matrix i j

/-- The prefix write at the end of `next_graph`:
`for(i = 0; i < PERM_BLOCK_SIZE; i++) row[i] = (p >> i) & 1;`. -/
def writeLowBits (row : List Bool) (p : Nat) : List Bool :=
  (List.range PERM_BLOCK_SIZE).foldl (fun r i => r.set i (p.testBit i)) row

/-- The suffix-clearing scan of `next_graph`:
`while(row[i] && i != order - 1) { row[i] = 0; i++; }`, started at
`i = PERM_BLOCK_SIZE`; returns the row and the index where the scan
stopped. -/
def suffixLoop (order : Nat) (row : List Bool) (i : Nat) : List Bool × Nat :=
  if h : row.getD i false = true ∧ i ≠ order - 1 then
    suffixLoop order (row.set i false) (i + 1)
  else (row, i)
termination_by row.length - i
decreasing_by
  simp only [List.length_set]
  have hi : i < row.length := by
    by_contra hge
    push_neg at hge
    rw [List.getD_eq_default _ _ hge] at h
    exact absurd h.1 (by decide)
  omega

/-- The suffix-advance branch of `next_graph` (entered when the snapshot is
consumed): scan-and-clear from `PERM_BLOCK_SIZE`; if the scan reached
`order - 1` report exhaustion (`return false`, modelled `none`), else set
the stopping bit. -/
def suffixAdv (order : Nat) (row : List Bool) : Option (List Bool) :=
  if (suffixLoop order row PERM_BLOCK_SIZE).2 = order - 1 then none
  else some ((suffixLoop order row PERM_BLOCK_SIZE).1.set
    (suffixLoop order row PERM_BLOCK_SIZE).2 true)

/-- `next_graph` from `extend_graph.c`: the search state is the new
vertex's row buffer (`matrix[order-1]`, cached in the static `row`) and the
prefix cursor `perm_filtered - perm_filtered_start` into the survivor
snapshot.  When the snapshot is fully consumed
(`perm_filtered == perm_filtered_end`), advance the suffix counter
(returning `none` for `return false` on exhaustion) and reset the cursor;
then read `p = *perm_filtered; perm_filtered++` and write `p`'s low
`PERM_BLOCK_SIZE` bits into the row. -/
def next_graph (snap : List Nat) (order : Nat) (row : List Bool)
    (cursor : Nat) : Option (List Bool × Nat) :=
  if cursor = snap.length then
    match suffixAdv order row with
    | none => none
    | some row' => some (writeLowBits row' (snap.getD 0 0), 1)
  else some (writeLowBits row (snap.getD cursor 0), cursor + 1)

/-- `is_monochromatic` from `extend_graph.c`: the candidate five-clique is
monochromatic iff the new vertex's row has the clique's color at each of
the four member vertices (`row[clique[i]] ^ cc` must vanish for all). -/
def is_monochromatic (row : List Bool) (cl : FiveClique) : Bool :=
  cl.members.all fun v => row.getD v false == cl.cc

/-- The inner check of the search loop:
`i = 0; while(i < four_clique_count && !(monochromatic = is_monochromatic(...))) i++;`
`m` is the value the `monochromatic` flag carries into the loop — it is
only reassigned when at least one clique is checked. -/
def checkLoop (row : List Bool) : Bool → List FiveClique → Bool
  | m, [] => m
  | _, c :: cs => if is_monochromatic row c then true else checkLoop row false cs

/-- Outcomes of the search loop (`while(true)` in `main`): exhaustion
(`next_graph` returned false), success (a clique-free coloring found,
carrying the new vertex's row at which `dump_graph` is called), or running
out of the model's fuel. -/
inductive SearchOutcome where
  | fuelOut : SearchOutcome
  | exhausted : SearchOutcome
  | success : List Bool → SearchOutcome
deriving DecidableEq, Repr

/-- Discriminator for the success outcome. -/
def isSuccess : SearchOutcome → Bool
  | .success _ => true
  | _ => false

/-- The search loop of `main` (lines 668–716): advance to the next graph
(exhaustion if impossible), check all candidate cliques, and stop with
success when the `monochromatic` flag ends up false.  The flag's value is
threaded between iterations exactly as the C variable is. -/
def searchLoop (cliques : List FiveClique) (snap : List Nat) (order : Nat) :
    Nat → List Bool → Nat → Bool → SearchOutcome
  | 0, _, _, _ => .fuelOut
  | fuel + 1, row, cursor, mono =>
    match next_graph snap order row cursor with
    | none => .exhausted
    | some (row', cursor') =>
      if checkLoop row' mono cliques = false then .success row'
      else searchLoop cliques snap order fuel row' cursor'
        (checkLoop row' mono cliques)

/-- Little-endian value of a bit list (bit 0 first). -/
def bitsVal : List Bool → Nat
  | [] => 0
  | b :: r => b.toNat + 2 * bitsVal r

/-- The suffix region of the new vertex's row: bits at indices
`[PERM_BLOCK_SIZE, order - 1)`. -/
def suffixSlice (order : Nat) (row : List Bool) : List Bool :=
  (List.range' PERM_BLOCK_SIZE (order - 1 - PERM_BLOCK_SIZE)).map
    fun j => row.getD j false

/-- The suffix counter's value: the binary number formed by the suffix
bits, least significant at index `PERM_BLOCK_SIZE`. -/
def suffixVal (order : Nat) (row : List Bool) : Nat :=
  bitsVal (suffixSlice order row)

/-- Iterating the suffix-advance operation `k` times. -/
def suffixIter (order : Nat) (row : List Bool) : Nat → Option (List Bool)
  | 0 => some row
  | k + 1 =>
    match suffixIter order row k with
    | none => none
    | some r => suffixAdv order r

/-- Steps remaining in the search space from a given state: full suffixes
yet to come times the snapshot size, plus the rest of the current snapshot
pass. -/
def searchMeasure (snap : List Nat) (order : Nat) (row : List Bool)
    (cursor : Nat) : Nat :=
  (2 ^ (order - 1 - PERM_BLOCK_SIZE) - suffixVal order row)
      * (snap.length + 1) + (snap.length - cursor)

/-- The right-neighbor value used by `next_n_clique`: `clique[i + 1]`,
which is the next marker or, for the rightmost marker, the sentinel
`clique[size] = order` installed by `find_monochromatic_n_cliques`. -/
def headOr (sent : Nat) : List Nat → Nat
  | [] => sent
  | r :: _ => r

/-- `next_n_clique` from both sources: scan from the rightmost marker for
the first one that can advance (`clique[i] < clique[i+1] - 1`), advance it,
and reset all markers to its right to the consecutive values after it;
`none` models the `return false` at the last combination.  The C loop
scans indices `size-1` down to `0`; here the recursion tries the tail
(the markers to the right) first, which is the same preference order. -/
def next_n_clique (sent : Nat) : List Nat → Option (List Nat)
  | [] => none
  | c :: rest =>
    match next_n_clique sent rest with
    | some rest' => some (c :: rest')
    | none =>
      if c < headOr sent rest - 1 then
        some ((c + 1) :: List.range' (c + 2) rest.length)
      else none

/-- The nested edge-color loops of `is_n_monochromatic`: for each marker,
compare the colors toward all later markers against `cc`, short-circuiting
on the first mismatch. -/
def monoPairs (matrix : Nat → Nat → Bool) (cc : Bool) : List Nat → Bool
  | [] => true
  | c :: rest => rest.all (fun d => matrix c d == cc) && monoPairs matrix cc rest

/-- `is_n_monochromatic` from both sources: `cc` is the color of the edge
between the first two subset members (`matrix[clique[0]][clique[1]]`), and
the subset is monochromatic iff every internal edge has color `cc`. -/
def is_n_monochromatic (matrix : Nat → Nat → Bool) (cl : List Nat) : Bool :=
  monoPairs matrix (matrix (cl.getD 0 0) (cl.getD 1 0)) cl

/-- The do-while loop of `find_monochromatic_n_cliques`: test the current
subset; when it is monochromatic, bump the `uint16_t` counter `count`
(which wraps modulo `2^16`) — if it has wrapped to zero, the C then calls
`realloc(cliques, sizeof(uint16_t*) * count)` = `realloc(cliques, 0)`,
releasing the clique array, and writes `cliques[count - 1]`, i.e.
`cliques[-1]`, an out-of-bounds write: undefined behavior, modeled as
`none` — otherwise append the subset; then step with `next_n_clique`
until it reports the last combination.  `fuel` bounds the iteration count
in the model; `find_monochromatic_n_cliques` supplies enough for the
whole enumeration. -/
def find_go (matrix : Nat → Nat → Bool) (sent : Nat) :
    Nat → List Nat → List (List Nat) → Nat →
      Option (List (List Nat) × Nat)
  | 0, _, acc, count => some (acc, count)
  | fuel + 1, cur, acc, count =>
    if is_n_monochromatic matrix cur then
      if (count + 1) % 65536 = 0 then none
      else
        match next_n_clique sent cur with
        | none => some (acc ++ [cur], (count + 1) % 65536)
        | some nxt =>
          find_go matrix sent fuel nxt (acc ++ [cur]) ((count + 1) % 65536)
    else
      match next_n_clique sent cur with
      | none => some (acc, count)
      | some nxt => find_go matrix sent fuel nxt acc count

/-- `find_monochromatic_n_cliques` from both sources: enumerate all
increasing `n`-subsets of `[0, order)` starting from `{0, ..., n-1}` (the
sentinel `clique[n] = order` is the `sent` argument) and return the
monochromatic ones together with the (16-bit) count — or fail (`none`)
when the counter overflows and the C corrupts the heap. -/
def find_monochromatic_n_cliques (matrix : Nat → Nat → Bool)
    (order n : Nat) : Option (List (List Nat) × Nat) :=
  find_go matrix order (Nat.choose order n + 1) (List.range n) [] 0

/-- The sequence of subsets visited by the do-while loop of
`find_monochromatic_n_cliques`, starting at `cur`, with at most `fuel`
iterations. -/
def cliqueRun (sent : Nat) : Nat → List Nat → List (List Nat)
  | 0, _ => []
  | fuel + 1, cur =>
    cur :: (match next_n_clique sent cur with
      | none => []
      | some nxt => cliqueRun sent fuel nxt)

/-- A strictly increasing marker tuple bounded by the sentinel: each
marker is below its right neighbor (or below `sent` for the last one).
This is the well-formedness invariant of the enumeration state. -/
def validTuple (sent : Nat) : List Nat → Bool
  | [] => true
  | c :: rest => decide (c < headOr sent rest) && validTuple sent rest

/-- All strictly increasing `n`-tuples over `[a, sent)`, in lexicographic
order (the reference enumeration the visited sequence is compared to). -/
def combosFrom (sent : Nat) : Nat → Nat → List (List Nat)
  | 0, _ => [[]]
  | n + 1, a =>
    ((List.range' a (sent - a)).map
      (fun c => (combosFrom sent n (c + 1)).map (fun t => c :: t))).flatten

/-- The five-clique record built in `main`: the four members of a found
monochromatic 4-clique (`five_cliques[i][0..3]`; the new vertex
`five_cliques[i][4] = order` is implicit) plus the stored color
`five_cliques[i][5] = matrix[clique[0]][clique[1]]`. -/
def mk_five (matrix : Nat → Nat → Bool) (cl : List Nat) : FiveClique :=
  ⟨cl, matrix (cl.getD 0 0) (cl.getD 1 0)⟩

/-- The interleaved filtering order of `main`'s `BLOCKY` loop:
`for j in [0,32): for i = j; i < count; i += 32`. -/
def blocky_order (n : Nat) : List Nat :=
  ((List.range 32).map
    (fun j => (List.range n).filter (fun i => i % 32 = j))).flatten

/-- A node of the permutation arena (`struct Perm_s`): the 26-bit value
and the doubly-linked-list neighbor pointers, modelled as slot indices
into the arena (the C pointers are addresses within `perm_block`). -/
structure PermNode where
  perm : Nat
  prev : Option Nat
  next : Option Nat
deriving DecidableEq, Repr

/-- The global permutation-list state: the backing array `perm_block`,
`perm_head`, and `perm_count`. -/
structure PermState where
  arena : List PermNode
  head : Option Nat
  count : Nat
deriving DecidableEq, Repr

/-- Walking the list from a slot pointer and collecting the `perm`
values, with fuel bounding the walk. -/
def chaseVals (arena : List PermNode) : Nat → Option Nat → List Nat
  | 0, _ => []
  | _ + 1, none => []
  | fuel + 1, some i =>
    match arena[i]? with
    | none => []
    | some nd => nd.perm :: chaseVals arena fuel nd.next

/-- `p->prev = pr` for the node in slot `k` (no-op out of bounds). -/
def setPrevAt (arena : List PermNode) (k : Nat) (pr : Option Nat) :
    List PermNode :=
  match arena[k]? with
  | none => arena
  | some nd => arena.set k { nd with prev := pr }

/-- `p->next = nx` for the node in slot `k` (no-op out of bounds). -/
def setNextAt (arena : List PermNode) (k : Nat) (nx : Option Nat) :
    List PermNode :=
  match arena[k]? with
  | none => arena
  | some nd => arena.set k { nd with next := nx }

/-- The `while(p)` loop of `perm_regroup`: copy the node at slot `p` into
slot `j` (`memcpy(perm_block + j, p, sizeof(Perm))`), retarget its
neighbors' pointers at the copy (`perm_block[j].next->prev = &perm_block[j]`,
and either `perm_block[j].prev->next = &perm_block[j]` or, for the head,
`perm_head = &perm_block[j]`), then advance `p = perm_block[j].next` and
increment `j`. -/
def regroupLoop : Nat → List PermNode → Option Nat → Nat → Option Nat →
    List PermNode × Option Nat
  | 0, arena, head, _, _ => (arena, head)
  | _ + 1, arena, head, _, none => (arena, head)
  | fuel + 1, arena, head, j, some pi =>
    match arena[pi]? with
    | none => (arena, head)
    | some nd =>
      let arena1 := arena.set j nd
      let arena2 := match nd.next with
        | some k => setPrevAt arena1 k (some j)
        | none => arena1
      match nd.prev with
      | some k =>
        let arena3 := setNextAt arena2 k (some j)
        regroupLoop fuel arena3 head (j + 1)
          ((arena3[j]?).bind fun m => m.next)
      | none =>
        regroupLoop fuel arena2 (some j) (j + 1)
          ((arena2[j]?).bind fun m => m.next)

/-- `perm_regroup` from `extend_graph.c`: compact the live nodes into the
initial slots of the backing array, starting the walk at `perm_head`;
`perm_count` is not touched. -/
def perm_regroup (st : PermState) : PermState :=
  { arena := (regroupLoop (st.arena.length + 1) st.arena st.head 0
      st.head).1,
    head := (regroupLoop (st.arena.length + 1) st.arena st.head 0
      st.head).2,
    count := st.count }

/-- Well-formedness of the live list: starting at slot `cur` (whose `prev`
field must equal `prevSlot`), the slots hold the values `vs` in order,
each slot index at least `lb` and linked forward by `next`; slot indices
strictly increase along the list (each recursive bound is the previous
slot plus one), which is the invariant the program maintains (nodes are
initialized in slot order and removal and regrouping never reorder). -/
def repChain (arena : List PermNode) :
    Nat → Option Nat → Option Nat → List Nat → Bool
  | _, _, none, vs => vs.isEmpty
  | _, _, some _, [] => false
  | lb, prevSlot, some i, v :: vs =>
    decide (lb ≤ i) &&
    match arena[i]? with
    | none => false
    | some nd =>
      nd.perm == v && nd.prev == prevSlot &&
        repChain arena (i + 1) (some i) nd.next vs

/-- The already-compacted region during regrouping: slots `i, i+1, ...`
hold the values `vs` consecutively, with `prev` pointing one slot back
(`none` for slot 0), each `next` pointing one slot forward, and the last
`next` equal to `pEnd`. -/
def movedChain (arena : List PermNode) :
    Nat → Option Nat → List Nat → Bool
  | _, _, [] => true
  | i, pEnd, v :: vs =>
    match arena[i]? with
    | none => false
    | some nd =>
      nd.perm == v &&
      nd.prev == (if i = 0 then none else some (i - 1)) &&
      nd.next == (match vs with | [] => pEnd | _ :: _ => some (i + 1)) &&
        movedChain arena (i + 1) pEnd vs

/-- A concrete small permutation state (one dead slot, two live nodes in
slots 1 and 2) used to exercise `perm_regroup`. -/
def regroupWitnessState : PermState :=
  ⟨[⟨99, none, none⟩, ⟨10, none, some 2⟩, ⟨20, some 1, none⟩], some 1, 2⟩

/-- Terminal behaviors of `main` after the filtering phase. -/
inductive MainOutcome where
  | exitedAfterFilter : MainOutcome
  | success : MainOutcome
  | exhausted : MainOutcome
deriving DecidableEq, Repr

/-- The tail of `main` in `extend_graph.c` after the matrix is loaded:
find the monochromatic 4-cliques, derive the five-clique candidates,
filter the `2^PERM_BLOCK_SIZE` permutation universe in `BLOCKY` order —
and then hit the unconditional `exit(0)` at line 652, which precedes the
snapshot construction and the whole search loop.  The search loop
(lines 668–716) is unreachable. -/
def mainAfterLoad (matrix : Nat → Nat → Bool) (order : Nat) :
    Option MainOutcome :=
  match find_monochromatic_n_cliques matrix order (CLIQUE_N - 1) with
  | none => none
  | some found =>
    let five := found.1.map (mk_five matrix)
    let _filtered := apply_masks
      ((blocky_order five.length).map (fun i => five.getD i ⟨[], false⟩))
      (List.range (2 ^ PERM_BLOCK_SIZE))
    some MainOutcome.exitedAfterFilter

end Ramsey

namespace Ramsey

theorem perm_walk_eq_filter (mask xmask : Nat) (l : List Nat) :
    perm_walk mask xmask l = l.filter (fun v => !maskMatch mask xmask v) := by
  induction l with
  | nil => rfl
  | cons v rest ih =>
    by_cases h : maskMatch mask xmask v = true
    · simp [perm_walk, h, List.filter, ih]
    · simp [perm_walk, h, List.filter, ih]

theorem perm_mask_snd_eq_filter (cl : FiveClique) (l : List Nat) :
    (perm_mask cl l).2 = l.filter (keepsValue cl) := by
  unfold perm_mask keepsValue
  cases hb : build_mask cl.members with
  | none => simp
  | some mask =>
    cases l with
    | nil => simp
    | cons v rest => simp [perm_walk_eq_filter]

theorem build_mask_of_confined (ms : List Nat)
    (h : ∀ v ∈ ms, v ≤ PERM_BLOCK_SIZE) : build_mask ms = some (mask_of ms) := by
  induction ms with
  | nil => rfl
  | cons v rest ih =>
    have hv : ¬ v > PERM_BLOCK_SIZE := by
      exact not_lt.mpr (h v (List.mem_cons_self v rest))
    have hrest : build_mask rest = some (mask_of rest) :=
      ih fun w hw => h w (List.mem_cons_of_mem v hw)
    simp [build_mask, hv, hrest, mask_of]

/-- C2.  Filtering soundness: for a candidate clique whose member vertices
all lie in the prefix `[0, PERM_BLOCK_SIZE)`, after the `perm_mask` pass
for that clique no surviving permutation value satisfies the mask test
`(v XOR x) & m == m` (with `m` the clique mask and `x = m` for color 0,
`x = 0` for color 1), and every value the pass removed did satisfy it. -/
theorem perm_mask_prefix_confined_sound (cl : FiveClique) (l : List Nat)
    (h : ∀ v ∈ cl.members, v < PERM_BLOCK_SIZE) :
    (∀ v ∈ (perm_mask cl l).2,
        maskMatch (mask_of cl.members)
          (if cl.cc then 0 else mask_of cl.members) v = false) ∧
    (∀ v ∈ l, v ∉ (perm_mask cl l).2 →
        maskMatch (mask_of cl.members)
          (if cl.cc then 0 else mask_of cl.members) v = true) := by
  have hb : build_mask cl.members = some (mask_of cl.members) :=
    build_mask_of_confined _ fun v hv => Nat.le_of_lt (h v hv)
  have hk : ∀ v, keepsValue cl v =
      !maskMatch (mask_of cl.members)
        (if cl.cc then 0 else mask_of cl.members) v := by
    intro v; unfold keepsValue; rw [hb]
  constructor
  · intro v hv
    rw [perm_mask_snd_eq_filter] at hv
    have := List.of_mem_filter hv
    rw [hk] at this
    simpa using this
  · intro v hv hnot
    rw [perm_mask_snd_eq_filter] at hnot
    by_contra hfalse
    exact hnot (List.mem_filter.mpr ⟨hv, by rw [hk]; simpa using hfalse⟩)

/-- Witness for C2 at the red clique `{0,1,2,3}` and survivor list
`[0, 15, 5]`: the pass removes exactly the value `0`. -/
theorem perm_mask_prefix_confined_sound_witness :
    (∀ v ∈ (perm_mask ⟨[0, 1, 2, 3], false⟩ [0, 15, 5]).2,
        maskMatch (mask_of [0, 1, 2, 3])
          (if false then 0 else mask_of [0, 1, 2, 3]) v = false) ∧
    (∀ v ∈ [0, 15, 5], v ∉ (perm_mask ⟨[0, 1, 2, 3], false⟩ [0, 15, 5]).2 →
        maskMatch (mask_of [0, 1, 2, 3])
          (if false then 0 else mask_of [0, 1, 2, 3]) v = true) :=
  perm_mask_prefix_confined_sound ⟨[0, 1, 2, 3], false⟩ [0, 15, 5]
    (by decide)

/-- C3 (code bug).  The confinement check in `perm_mask` is
`clique[i] > PERM_BLOCK_SIZE`, not `>=`: a candidate clique containing the
suffix vertex `26 = PERM_BLOCK_SIZE` (whose edge color is enumerated by the
suffix counter, not the prefix) is *not* deferred.  For the red clique
`{0,1,2,26}` over the survivor list `[0, 7]`, the pass removes the value
`0` (whose bit 26 is necessarily 0, as for every value of the `2^26`-sized
universe) and reports the clique as filtered — contradicting the claimed
"removes nothing and reports not filtered" for cliques with a member
`>= PERM_BLOCK_SIZE`. -/
theorem perm_mask_filters_boundary_vertex_clique :
    perm_mask ⟨[0, 1, 2, 26], false⟩ [0, 7] = (true, [7]) := by
  decide

theorem all_eq_of_perm {α : Type} {l₁ l₂ : List α} (h : l₁.Perm l₂)
    (p : α → Bool) : l₁.all p = l₂.all p := by
  cases h1 : l₁.all p with
  | true =>
    have := List.all_eq_true.mp h1
    exact (List.all_eq_true.mpr fun x hx => this x (h.mem_iff.mpr hx)).symm
  | false =>
    cases h2 : l₂.all p with
    | true =>
      have := List.all_eq_true.mp h2
      have : l₁.all p = true :=
        List.all_eq_true.mpr fun x hx => this x (h.mem_iff.mp hx)
      rw [h1] at this; exact absurd this (by decide)
    | false => rfl

theorem apply_masks_eq_filter (cs : List FiveClique) (l : List Nat) :
    apply_masks cs l = l.filter (fun v => cs.all (fun cl => keepsValue cl v)) := by
  induction cs generalizing l with
  | nil => simp [apply_masks]
  | cons c cs ih =>
    have h1 : apply_masks (c :: cs) l = apply_masks cs (perm_mask c l).2 := by
      simp [apply_masks]
    rw [h1, ih, perm_mask_snd_eq_filter, List.filter_filter]
    apply List.filter_congr
    intro v _
    simp [Bool.and_comm]

/-- C6.  Filtering monotonicity and order independence: each `perm_mask`
pass only removes values (the surviving list is a sublist of the input, so
no removed value is reinserted), a repeated pass removes nothing further,
and applying the passes of a collection of candidate cliques in any order
yields the same final surviving list. -/
theorem perm_mask_monotone_and_order_independent (l : List Nat) :
    (∀ cl : FiveClique, ((perm_mask cl l).2).Sublist l) ∧
    (∀ cl : FiveClique,
        (perm_mask cl (perm_mask cl l).2).2 = (perm_mask cl l).2) ∧
    (∀ cs₁ cs₂ : List FiveClique, cs₁.Perm cs₂ →
        apply_masks cs₁ l = apply_masks cs₂ l) := by
  refine ⟨?_, ?_, ?_⟩
  · intro cl; rw [perm_mask_snd_eq_filter]; exact List.filter_sublist l
  · intro cl
    rw [perm_mask_snd_eq_filter, perm_mask_snd_eq_filter,
      List.filter_filter]
    apply List.filter_congr
    intro v hv
    simp
  · intro cs₁ cs₂ hperm
    rw [apply_masks_eq_filter, apply_masks_eq_filter]
    apply List.filter_congr
    intro v hv
    exact all_eq_of_perm hperm _

/-- Witness for C6: two passes applied in either order over `[0, 1, 15]`
give the same surviving list. -/
theorem perm_mask_monotone_and_order_independent_witness :
    apply_masks [⟨[0, 1, 2, 3], false⟩, ⟨[0, 1, 2, 3], true⟩] [0, 1, 15] =
      apply_masks [⟨[0, 1, 2, 3], true⟩, ⟨[0, 1, 2, 3], false⟩] [0, 1, 15] :=
  (perm_mask_monotone_and_order_independent [0, 1, 15]).2.2 _ _ (by decide)

theorem load_go_spec (order : Nat) (input : List Char) :
    ∀ (i : Nat) (acc : List Bool), i = acc.length → i ≤ order * order →
    load_go order input i acc =
      if acc.length + (input.filterMap charBit).length = order * order then
        some (acc ++ input.filterMap charBit) else none := by
  induction input with
  | nil =>
    intro i acc hi _
    simp [load_go, hi]
  | cons c rest ih =>
    intro i acc hi hle
    cases hc : charBit c with
    | none =>
      have hfm : (c :: rest).filterMap charBit = rest.filterMap charBit := by
        simp [List.filterMap_cons, hc]
      by_cases hlt : i < order * order
      · rw [show load_go order (c :: rest) i acc = load_go order rest i acc by
          simp [load_go, hlt, hc], ih i acc hi hle, hfm]
      · rw [show load_go order (c :: rest) i acc = load_go order rest i acc by
          simp [load_go, hlt, hc], ih i acc hi hle, hfm]
    | some b =>
      have hfm : (c :: rest).filterMap charBit = b :: rest.filterMap charBit := by
        simp [List.filterMap_cons, hc]
      by_cases hlt : i < order * order
      · rw [show load_go order (c :: rest) i acc
            = load_go order rest (i + 1) (acc ++ [b]) by
          simp [load_go, hlt, hc]]
        rw [ih (i + 1) (acc ++ [b]) (by simp [hi]) (by omega), hfm]
        have harr : acc ++ [b] ++ rest.filterMap charBit
            = acc ++ (b :: rest.filterMap charBit) := by simp
        have hlen : (acc ++ [b]).length + (rest.filterMap charBit).length
            = acc.length + (b :: rest.filterMap charBit).length := by
          simp; omega
        rw [harr, hlen]
      · have hieq : i = order * order := by omega
        rw [show load_go order (c :: rest) i acc = none by
          simp [load_go, hlt, hc]]
        have : acc.length + ((c :: rest).filterMap charBit).length
            ≠ order * order := by
          rw [hfm]; simp [← hi, hieq]
        simp [this]

theorem load_go_fc_spec (order : Nat) (input : List Char) :
    ∀ (i : Nat) (acc : List Bool), i = acc.length →
    load_go_fc order input i acc =
      if acc.length + (input.filterMap charBit).length = order * order then
        some (acc ++ input.filterMap charBit) else none := by
  induction input with
  | nil =>
    intro i acc hi
    simp [load_go_fc, hi]
  | cons c rest ih =>
    intro i acc hi
    cases hc : charBit c with
    | none =>
      have hfm : (c :: rest).filterMap charBit = rest.filterMap charBit := by
        simp [List.filterMap_cons, hc]
      rw [show load_go_fc order (c :: rest) i acc = load_go_fc order rest i acc by
        simp [load_go_fc, hc], ih i acc hi, hfm]
    | some b =>
      have hfm : (c :: rest).filterMap charBit = b :: rest.filterMap charBit := by
        simp [List.filterMap_cons, hc]
      rw [show load_go_fc order (c :: rest) i acc
          = load_go_fc order rest (i + 1) (acc ++ [b]) by
        simp [load_go_fc, hc]]
      rw [ih (i + 1) (acc ++ [b]) (by simp [hi]), hfm]
      have harr : acc ++ [b] ++ rest.filterMap charBit
          = acc ++ (b :: rest.filterMap charBit) := by simp
      have hlen : (acc ++ [b]).length + (rest.filterMap charBit).length
          = acc.length + (b :: rest.filterMap charBit).length := by
        simp; omega
      rw [harr, hlen]

theorem getD_set_ne {α : Type} (l : List α) (i j : Nat) (a d : α)
    (h : i ≠ j) : (l.set i a).getD j d = l.getD j d := by
  rw [List.getD_eq_getD_get?, List.getD_eq_getD_get?, List.get?_eq_getElem?,
    List.get?_eq_getElem?, List.getElem?_set_ne h]

theorem getD_set_self {α : Type} (l : List α) (i : Nat) (a d : α)
    (h : i < l.length) : (l.set i a).getD i d = a := by
  rw [List.getD_eq_getD_get?, List.get?_eq_getElem?,
    List.getElem?_set_eq_of_lt a h]
  rfl

theorem suffixLoop_length_aux :
    ∀ (k order : Nat) (row : List Bool) (i : Nat), row.length - i ≤ k →
    (suffixLoop order row i).1.length = row.length := by
  intro k
  induction k with
  | zero =>
    intro order row i hk
    have hge : row.length ≤ i := by omega
    rw [suffixLoop, dif_neg (by rw [List.getD_eq_default _ _ hge]; simp)]
  | succ k ih =>
    intro order row i hk
    by_cases h : row.getD i false = true ∧ i ≠ order - 1
    · have hlen : i < row.length := by
        by_contra hge
        push_neg at hge
        rw [List.getD_eq_default _ _ hge] at h
        exact absurd h.1 (by decide)
      rw [suffixLoop, dif_pos h,
        ih order (row.set i false) (i + 1) (by rw [List.length_set]; omega),
        List.length_set]
    · rw [suffixLoop, dif_neg h]

theorem suffixLoop_length (order : Nat) (row : List Bool) (i : Nat) :
    (suffixLoop order row i).1.length = row.length :=
  suffixLoop_length_aux row.length order row i (Nat.sub_le _ _)

theorem suffixLoop_all_ones : ∀ (k order : Nat) (row : List Bool) (i : Nat),
    order - 1 - i ≤ k → i ≤ order - 1 →
    (∀ j, i ≤ j → j < order - 1 → row.getD j false = true) →
    (suffixLoop order row i).2 = order - 1 := by
  intro k
  induction k with
  | zero =>
    intro order row i hk hle _
    have hi : i = order - 1 := by omega
    rw [suffixLoop, dif_neg (by simp [hi])]
    exact hi
  | succ k ih =>
    intro order row i hk hle h
    by_cases hi : i = order - 1
    · rw [suffixLoop, dif_neg (by simp [hi])]
      exact hi
    · have hlt : i < order - 1 := by omega
      have hgi : row.getD i false = true := h i le_rfl hlt
      rw [suffixLoop, dif_pos ⟨hgi, hi⟩]
      refine ih order (row.set i false) (i + 1) (by omega) (by omega) ?_
      intro j hj1 hj2
      rw [getD_set_ne _ _ _ _ _ (by omega)]
      exact h j (by omega) hj2

theorem suffixLoop_stops : ∀ (d order : Nat) (row : List Bool) (i i0 : Nat),
    i0 - i ≤ d → i ≤ i0 → i0 < order - 1 → row.getD i0 false = false →
    (∀ j, i ≤ j → j < i0 → row.getD j false = true) →
    (suffixLoop order row i).2 = i0 ∧
    ∀ j, (suffixLoop order row i).1.getD j false =
      if i ≤ j ∧ j < i0 then false else row.getD j false := by
  intro d
  induction d with
  | zero =>
    intro order row i i0 hd hle hlt h0 _
    have hii : i = i0 := by omega
    subst hii
    rw [suffixLoop, dif_neg (by rw [h0]; simp)]
    exact ⟨rfl, fun j => by rw [if_neg (by omega)]⟩
  | succ d ih =>
    intro order row i i0 hd hle hlt h0 h
    by_cases hii : i = i0
    · subst hii
      rw [suffixLoop, dif_neg (by rw [h0]; simp)]
      exact ⟨rfl, fun j => by rw [if_neg (by omega)]⟩
    · have hilt : i < i0 := by omega
      have hgi : row.getD i false = true := h i le_rfl hilt
      have hlen_i : i < row.length := by
        by_contra hge
        push_neg at hge
        rw [List.getD_eq_default _ _ hge] at hgi
        exact absurd hgi (by decide)
      rw [suffixLoop, dif_pos ⟨hgi, by omega⟩]
      obtain ⟨hsnd, hfst⟩ := ih order (row.set i false) (i + 1) i0 (by omega)
        (by omega) hlt
        (by rw [getD_set_ne _ _ _ _ _ (by omega)]; exact h0)
        (fun j hj1 hj2 => by
          rw [getD_set_ne _ _ _ _ _ (by omega)]
          exact h j (by omega) hj2)
      refine ⟨hsnd, fun j => ?_⟩
      rw [hfst j]
      by_cases hji : j = i
      · subst hji
        rw [if_neg (by omega), if_pos ⟨le_rfl, hilt⟩,
          getD_set_self _ _ _ _ hlen_i]
      · rw [getD_set_ne _ _ _ _ _ (fun he => hji he.symm)]
        by_cases h1 : i + 1 ≤ j ∧ j < i0
        · rw [if_pos h1, if_pos (by omega)]
        · rw [if_neg h1, if_neg (by omega)]

theorem foldl_set_length (p : Nat) : ∀ (is : List Nat) (row : List Bool),
    (is.foldl (fun r i => r.set i (p.testBit i)) row).length = row.length := by
  intro is
  induction is with
  | nil => intro row; rfl
  | cons i rest ih =>
    intro row
    rw [List.foldl_cons, ih, List.length_set]

theorem foldl_set_getD_not_mem (p : Nat) :
    ∀ (is : List Nat) (row : List Bool) (j : Nat), j ∉ is →
    (is.foldl (fun r i => r.set i (p.testBit i)) row).getD j false
      = row.getD j false := by
  intro is
  induction is with
  | nil => intros; rfl
  | cons i rest ih =>
    intro row j hj
    rw [List.foldl_cons, ih _ j (fun h => hj (List.mem_cons_of_mem _ h)),
      getD_set_ne _ _ _ _ _
        (by intro he; subst he; exact hj (List.mem_cons_self _ _))]

theorem foldl_set_getD_mem (p : Nat) :
    ∀ (is : List Nat) (row : List Bool) (j : Nat), is.Nodup → j ∈ is →
    j < row.length →
    (is.foldl (fun r i => r.set i (p.testBit i)) row).getD j false
      = p.testBit j := by
  intro is
  induction is with
  | nil => intro row j _ hmem _; exact absurd hmem (by simp)
  | cons i rest ih =>
    intro row j hnd hj hlen
    rw [List.foldl_cons]
    rcases List.mem_cons.mp hj with h | h
    · subst h
      rw [foldl_set_getD_not_mem p rest _ j (List.nodup_cons.mp hnd).1,
        getD_set_self _ _ _ _ hlen]
    · exact ih _ j (List.nodup_cons.mp hnd).2 h
        (by rw [List.length_set]; exact hlen)

theorem writeLowBits_length (row : List Bool) (p : Nat) :
    (writeLowBits row p).length = row.length :=
  foldl_set_length p _ row

theorem writeLowBits_getD_high (row : List Bool) (p : Nat) (j : Nat)
    (hj : PERM_BLOCK_SIZE ≤ j) :
    (writeLowBits row p).getD j false = row.getD j false :=
  foldl_set_getD_not_mem p _ row j
    (fun hmem => absurd (List.mem_range.mp hmem) (by omega))

theorem writeLowBits_getD_low (row : List Bool) (p : Nat) (j : Nat)
    (hj : j < PERM_BLOCK_SIZE) (hlen : j < row.length) :
    (writeLowBits row p).getD j false = p.testBit j :=
  foldl_set_getD_mem p _ row j (List.nodup_range _)
    (List.mem_range.mpr hj) hlen

theorem bitsVal_lt (s : List Bool) : bitsVal s < 2 ^ s.length := by
  induction s with
  | nil => simp [bitsVal]
  | cons b r ih =>
    cases b <;> simp only [bitsVal, Bool.toNat_true, Bool.toNat_false,
      List.length_cons, pow_succ] <;> omega

theorem bitsVal_replicate_false (n : Nat) :
    bitsVal (List.replicate n false) = 0 := by
  induction n with
  | zero => rfl
  | succ n ih => simp [List.replicate_succ, bitsVal, ih]

theorem bitsVal_max_iff (s : List Bool) :
    bitsVal s + 1 = 2 ^ s.length ↔ ∀ b ∈ s, b = true := by
  induction s with
  | nil => simp [bitsVal]
  | cons b r ih =>
    have hr := bitsVal_lt r
    cases b with
    | false =>
      simp only [bitsVal, Bool.toNat_false, List.length_cons, pow_succ]
      constructor
      · intro h
        exact absurd h (by omega)
      · intro h
        exact absurd (h false (List.mem_cons_self _ _)) (by decide)
    | true =>
      simp only [bitsVal, Bool.toNat_true, List.length_cons, pow_succ]
      constructor
      · intro h x hx
        rcases List.mem_cons.mp hx with hx | hx
        · exact hx
        · exact ih.mp (by omega) x hx
      · intro h
        have hrec : bitsVal r + 1 = 2 ^ r.length :=
          ih.mpr fun x hx => h x (List.mem_cons_of_mem _ hx)
        omega

theorem bitsVal_inc (k : Nat) (rest : List Bool) :
    bitsVal (List.replicate k false ++ true :: rest)
      = bitsVal (List.replicate k true ++ false :: rest) + 1 := by
  induction k with
  | zero =>
    simp only [List.replicate, List.nil_append, bitsVal, Bool.toNat_true,
      Bool.toNat_false]
    omega
  | succ k ih =>
    simp only [List.replicate_succ, List.cons_append, bitsVal,
      Bool.toNat_true, Bool.toNat_false, List.append_eq]
    rw [ih]
    omega

theorem suffixSlice_length (order : Nat) (row : List Bool) :
    (suffixSlice order row).length = order - 1 - PERM_BLOCK_SIZE := by
  simp [suffixSlice]

theorem suffixVal_lt (order : Nat) (row : List Bool) :
    suffixVal order row < 2 ^ (order - 1 - PERM_BLOCK_SIZE) := by
  have := bitsVal_lt (suffixSlice order row)
  rwa [suffixSlice_length] at this

theorem region_all_ones_iff (order : Nat) (row : List Bool) :
    (∀ j, PERM_BLOCK_SIZE ≤ j → j < order - 1 → row.getD j false = true) ↔
    suffixVal order row + 1 = 2 ^ (order - 1 - PERM_BLOCK_SIZE) := by
  rw [suffixVal, show (2 : Nat) ^ (order - 1 - PERM_BLOCK_SIZE)
      = 2 ^ (suffixSlice order row).length by rw [suffixSlice_length],
    bitsVal_max_iff]
  constructor
  · intro h b hb
    simp only [suffixSlice, List.mem_map] at hb
    obtain ⟨j, hj, rfl⟩ := hb
    rw [List.mem_range'_1] at hj
    exact h j hj.1 (by omega)
  · intro h j hj1 hj2
    refine h _ ?_
    simp only [suffixSlice, List.mem_map]
    exact ⟨j, List.mem_range'_1.mpr ⟨hj1, by omega⟩, rfl⟩

theorem getD_replicate_false (n j : Nat) :
    (List.replicate n false).getD j false = false := by
  rcases Nat.lt_or_ge j n with h | h
  · rw [List.getD_eq_getElem _ _ (by simpa using h)]
    simp
  · rw [List.getD_eq_default _ _ (by simpa using h)]

theorem bitsVal_of_all_false (s : List Bool) (h : ∀ b ∈ s, b = false) :
    bitsVal s = 0 := by
  induction s with
  | nil => rfl
  | cons b r ih =>
    rw [bitsVal, h b (List.mem_cons_self _ _),
      ih fun x hx => h x (List.mem_cons_of_mem _ hx)]
    rfl

theorem suffixVal_replicate_false (order n : Nat) :
    suffixVal order (List.replicate n false) = 0 := by
  apply bitsVal_of_all_false
  intro b hb
  simp only [suffixSlice, List.mem_map] at hb
  obtain ⟨j, _, rfl⟩ := hb
  exact getD_replicate_false n j

theorem suffixVal_congr (order : Nat) (row row' : List Bool)
    (h : ∀ j, PERM_BLOCK_SIZE ≤ j → j < order - 1 →
      row'.getD j false = row.getD j false) :
    suffixVal order row' = suffixVal order row := by
  unfold suffixVal suffixSlice
  congr 1
  apply List.map_congr_left
  intro j hj
  rw [List.mem_range'_1] at hj
  exact h j hj.1 (by omega)

theorem suffixVal_succ_of_desc (order : Nat) (row r' : List Bool) (i0 : Nat)
    (hB : PERM_BLOCK_SIZE ≤ i0) (hlt : i0 < order - 1)
    (hz : row.getD i0 false = false)
    (hones : ∀ j, PERM_BLOCK_SIZE ≤ j → j < i0 → row.getD j false = true)
    (hdesc : ∀ j, r'.getD j false = if j = i0 then true
      else if PERM_BLOCK_SIZE ≤ j ∧ j < i0 then false
      else row.getD j false) :
    suffixVal order r' = suffixVal order row + 1 := by
  have hL : order - 1 - PERM_BLOCK_SIZE
      = (i0 - PERM_BLOCK_SIZE) + ((order - 1 - PERM_BLOCK_SIZE)
        - (i0 - PERM_BLOCK_SIZE)) := by omega
  have hsplit : List.range' PERM_BLOCK_SIZE (order - 1 - PERM_BLOCK_SIZE)
      = List.range' PERM_BLOCK_SIZE (i0 - PERM_BLOCK_SIZE)
        ++ List.range' i0 (order - 1 - i0) := by
    have harr := List.range'_append PERM_BLOCK_SIZE (i0 - PERM_BLOCK_SIZE)
      (order - 1 - i0) 1
    simp only [Nat.mul_one, Nat.one_mul] at harr
    rw [show PERM_BLOCK_SIZE + (i0 - PERM_BLOCK_SIZE) = i0 by omega] at harr
    rw [show order - 1 - PERM_BLOCK_SIZE
      = order - 1 - i0 + (i0 - PERM_BLOCK_SIZE) by omega]
    exact harr.symm
  have htail : List.range' i0 (order - 1 - i0)
      = i0 :: List.range' (i0 + 1) (order - 1 - i0 - 1) := by
    generalize hm : order - 1 - i0 - 1 = m
    rw [show order - 1 - i0 = m + 1 by omega, List.range'_succ]
  have hrow : suffixSlice order row
      = List.replicate (i0 - PERM_BLOCK_SIZE) true ++ false ::
        (List.range' (i0 + 1) (order - 1 - i0 - 1)).map
          (fun j => row.getD j false) := by
    unfold suffixSlice
    rw [hsplit, List.map_append, htail, List.map_cons, hz]
    congr 1
    rw [List.eq_replicate_iff]
    refine ⟨by simp, ?_⟩
    intro b hb
    simp only [List.mem_map] at hb
    obtain ⟨j, hj, rfl⟩ := hb
    rw [List.mem_range'_1] at hj
    exact hones j hj.1 (by omega)
  have hrow' : suffixSlice order r'
      = List.replicate (i0 - PERM_BLOCK_SIZE) false ++ true ::
        (List.range' (i0 + 1) (order - 1 - i0 - 1)).map
          (fun j => row.getD j false) := by
    unfold suffixSlice
    rw [hsplit, List.map_append, htail, List.map_cons]
    congr 1
    · rw [List.eq_replicate_iff]
      refine ⟨by simp, ?_⟩
      intro b hb
      simp only [List.mem_map] at hb
      obtain ⟨j, hj, rfl⟩ := hb
      rw [List.mem_range'_1] at hj
      rw [hdesc j, if_neg (by omega), if_pos ⟨hj.1, by omega⟩]
    · rw [show r'.getD i0 false = true by rw [hdesc i0, if_pos rfl]]
      congr 1
      apply List.map_congr_left
      intro j hj
      rw [List.mem_range'_1] at hj
      rw [hdesc j, if_neg (by omega), if_neg (by omega)]
  rw [suffixVal, suffixVal, hrow, hrow', bitsVal_inc]

theorem suffixAdv_advance (order : Nat) (row : List Bool) (i0 : Nat)
    (hlen : row.length = order)
    (hB : PERM_BLOCK_SIZE ≤ i0) (hlt : i0 < order - 1)
    (hz : row.getD i0 false = false)
    (hones : ∀ j, PERM_BLOCK_SIZE ≤ j → j < i0 → row.getD j false = true) :
    ∃ r', suffixAdv order row = some r' ∧ r'.length = order ∧
      (∀ j, r'.getD j false = if j = i0 then true
        else if PERM_BLOCK_SIZE ≤ j ∧ j < i0 then false
        else row.getD j false) ∧
      suffixVal order r' = suffixVal order row + 1 := by
  obtain ⟨hsnd, hfst⟩ := suffixLoop_stops (i0 - PERM_BLOCK_SIZE) order row
    PERM_BLOCK_SIZE i0 le_rfl hB hlt hz hones
  have hflen : (suffixLoop order row PERM_BLOCK_SIZE).1.length = order := by
    rw [suffixLoop_length, hlen]
  refine ⟨(suffixLoop order row PERM_BLOCK_SIZE).1.set
    (suffixLoop order row PERM_BLOCK_SIZE).2 true, ?_, ?_, ?_, ?_⟩
  · rw [suffixAdv, if_neg (by rw [hsnd]; omega)]
  · rw [List.length_set, hflen]
  · intro j
    rw [hsnd]
    by_cases hji : j = i0
    · subst hji
      rw [if_pos rfl, getD_set_self _ _ _ _ (by omega)]
    · rw [getD_set_ne _ _ _ _ _ (fun he => hji he.symm), hfst j,
        if_neg hji]
  · apply suffixVal_succ_of_desc order row _ i0 hB hlt hz hones
    intro j
    rw [hsnd]
    by_cases hji : j = i0
    · subst hji
      rw [if_pos rfl, getD_set_self _ _ _ _ (by omega)]
    · rw [getD_set_ne _ _ _ _ _ (fun he => hji he.symm), hfst j,
        if_neg hji]

theorem suffixAdv_none_iff (order : Nat) (row : List Bool)
    (hlen : row.length = order) (hord : PERM_BLOCK_SIZE < order) :
    suffixAdv order row = none ↔
      (∀ j, PERM_BLOCK_SIZE ≤ j → j < order - 1 →
        row.getD j false = true) := by
  constructor
  · intro h
    by_contra hno
    push_neg at hno
    obtain ⟨j, hj1, hj2, hj3⟩ := hno
    have hex : ∃ j, PERM_BLOCK_SIZE ≤ j ∧ j < order - 1 ∧
        row.getD j false = false := ⟨j, hj1, hj2, by
      cases hgb : row.getD j false with
      | true => exact absurd hgb hj3
      | false => rfl⟩
    obtain ⟨r', hr', _, _, _⟩ := suffixAdv_advance order row (Nat.find hex)
      hlen (Nat.find_spec hex).1 (Nat.find_spec hex).2.1
      (Nat.find_spec hex).2.2
      (fun m hm1 hm2 => by
        have := Nat.find_min hex hm2
        cases hgb : row.getD m false with
        | true => rfl
        | false => exact absurd ⟨hm1, by
            have hfind := (Nat.find_spec hex).2.1
            exact ⟨by omega, hgb⟩⟩ this)
    rw [h] at hr'
    exact absurd hr' (by simp)
  · intro h
    rw [suffixAdv, if_pos (suffixLoop_all_ones (order - 1 - PERM_BLOCK_SIZE)
      order row PERM_BLOCK_SIZE le_rfl (by omega) h)]

theorem suffixAdv_of_not_full (order : Nat) (row : List Bool)
    (hlen : row.length = order) (_hord : PERM_BLOCK_SIZE < order)
    (hnot : suffixVal order row + 1 ≠ 2 ^ (order - 1 - PERM_BLOCK_SIZE)) :
    ∃ r', suffixAdv order row = some r' ∧ r'.length = order ∧
      suffixVal order r' = suffixVal order row + 1 := by
  have hno : ¬ ∀ j, PERM_BLOCK_SIZE ≤ j → j < order - 1 →
      row.getD j false = true := by
    intro hall
    exact hnot ((region_all_ones_iff order row).mp hall)
  push_neg at hno
  obtain ⟨j, hj1, hj2, hj3⟩ := hno
  have hex : ∃ j, PERM_BLOCK_SIZE ≤ j ∧ j < order - 1 ∧
      row.getD j false = false := ⟨j, hj1, hj2, by
    cases hgb : row.getD j false with
    | true => exact absurd hgb hj3
    | false => rfl⟩
  obtain ⟨r', hr', hrlen, _, hval⟩ := suffixAdv_advance order row
    (Nat.find hex) hlen (Nat.find_spec hex).1 (Nat.find_spec hex).2.1
    (Nat.find_spec hex).2.2
    (fun m hm1 hm2 => by
      have := Nat.find_min hex hm2
      cases hgb : row.getD m false with
      | true => rfl
      | false => exact absurd ⟨hm1, by
          have hfind := (Nat.find_spec hex).2.1
          exact ⟨by omega, hgb⟩⟩ this)
  exact ⟨r', hr', hrlen, hval⟩

theorem suffixIter_reaches_all (order : Nat)
    (hord : PERM_BLOCK_SIZE < order) :
    (∀ k, k < 2 ^ (order - 1 - PERM_BLOCK_SIZE) →
      ∃ r, suffixIter order (List.replicate order false) k = some r ∧
        suffixVal order r = k ∧ r.length = order) ∧
    suffixIter order (List.replicate order false)
      (2 ^ (order - 1 - PERM_BLOCK_SIZE)) = none := by
  have hall : ∀ k, k < 2 ^ (order - 1 - PERM_BLOCK_SIZE) →
      ∃ r, suffixIter order (List.replicate order false) k = some r ∧
        suffixVal order r = k ∧ r.length = order := by
    intro k
    induction k with
    | zero =>
      intro _
      exact ⟨List.replicate order false, rfl,
        suffixVal_replicate_false order order, by simp⟩
    | succ k ih =>
      intro hk
      obtain ⟨r, hit, hval, hrlen⟩ := ih (by omega)
      obtain ⟨r', hr', hrlen', hval'⟩ := suffixAdv_of_not_full order r
        hrlen hord (by omega)
      refine ⟨r', ?_, by omega, hrlen'⟩
      rw [suffixIter, hit]
      exact hr'
  refine ⟨hall, ?_⟩
  have h1 : (1 : Nat) ≤ 2 ^ (order - 1 - PERM_BLOCK_SIZE) :=
    Nat.one_le_two_pow
  obtain ⟨r, hit, hval, hrlen⟩ := hall (2 ^ (order - 1 - PERM_BLOCK_SIZE) - 1)
    (by omega)
  have hfull : suffixAdv order r = none := by
    rw [suffixAdv_none_iff order r hrlen hord]
    rw [region_all_ones_iff order r]
    omega
  rw [show (2 : Nat) ^ (order - 1 - PERM_BLOCK_SIZE)
    = (2 ^ (order - 1 - PERM_BLOCK_SIZE) - 1) + 1 by omega,
    suffixIter, hit]
  exact hfull

theorem suffixVal_writeLowBits (order : Nat) (row : List Bool) (p : Nat) :
    suffixVal order (writeLowBits row p) = suffixVal order row :=
  suffixVal_congr order row _ fun j hj _ => writeLowBits_getD_high row p j hj

/-- C7.  Suffix counter correctness of `next_graph`: with the snapshot
consumed, it returns `none` exactly when every suffix bit in
`[PERM_BLOCK_SIZE, order-1)` is 1; when the lowest zero suffix bit is at
`i0` it clears the suffix bits below `i0`, sets bit `i0`, leaves higher
bits alone, resets the prefix cursor (consuming snapshot entry 0, so the
cursor ends at 1 with the entry's bits written into the prefix), and the
suffix counter value increments by one; iterated from the all-zero row the
counter reaches every one of the `2^(order-1-PERM_BLOCK_SIZE)` suffix
patterns before exhausting. -/
theorem next_graph_suffix_counter (snap : List Nat) (order : Nat)
    (row : List Bool) (cursor : Nat) (hlen : row.length = order)
    (hord : PERM_BLOCK_SIZE < order) (hcur : cursor = snap.length) :
    (next_graph snap order row cursor = none ↔
      ∀ j, PERM_BLOCK_SIZE ≤ j → j < order - 1 →
        row.getD j false = true) ∧
    (∀ i0, PERM_BLOCK_SIZE ≤ i0 → i0 < order - 1 →
      row.getD i0 false = false →
      (∀ j, PERM_BLOCK_SIZE ≤ j → j < i0 → row.getD j false = true) →
      ∃ row', next_graph snap order row cursor = some (row', 1) ∧
        row'.getD i0 false = true ∧
        (∀ j, PERM_BLOCK_SIZE ≤ j → j < i0 → row'.getD j false = false) ∧
        (∀ j, i0 < j → row'.getD j false = row.getD j false) ∧
        (∀ j, j < PERM_BLOCK_SIZE →
          row'.getD j false = (snap.getD 0 0).testBit j) ∧
        suffixVal order row' = suffixVal order row + 1) ∧
    (∀ k, k < 2 ^ (order - 1 - PERM_BLOCK_SIZE) →
      ∃ r, suffixIter order (List.replicate order false) k = some r ∧
        suffixVal order r = k ∧ r.length = order) ∧
    suffixIter order (List.replicate order false)
      (2 ^ (order - 1 - PERM_BLOCK_SIZE)) = none := by
  refine ⟨?_, ?_, (suffixIter_reaches_all order hord).1,
    (suffixIter_reaches_all order hord).2⟩
  · rw [next_graph, if_pos hcur]
    cases hadv : suffixAdv order row with
    | none =>
      exact ⟨fun _ => (suffixAdv_none_iff order row hlen hord).mp hadv,
        fun _ => rfl⟩
    | some row' =>
      constructor
      · intro h
        simp at h
      · intro hall
        have hcontra := (suffixAdv_none_iff order row hlen hord).mpr hall
        rw [hadv] at hcontra
        exact absurd hcontra (by simp)
  · intro i0 h1 h2 h3 h4
    obtain ⟨r', hadv, hrlen, hdesc, hval⟩ :=
      suffixAdv_advance order row i0 hlen h1 h2 h3 h4
    refine ⟨writeLowBits r' (snap.getD 0 0), ?_, ?_, ?_, ?_, ?_, ?_⟩
    · rw [next_graph, if_pos hcur, hadv]
    · rw [writeLowBits_getD_high _ _ _ h1, hdesc i0, if_pos rfl]
    · intro j hj1 hj2
      rw [writeLowBits_getD_high _ _ _ hj1, hdesc j, if_neg (by omega),
        if_pos ⟨hj1, hj2⟩]
    · intro j hj
      rw [writeLowBits_getD_high _ _ _ (by omega), hdesc j,
        if_neg (by omega), if_neg (by omega)]
    · intro j hj
      rw [writeLowBits_getD_low _ _ _ hj (by omega)]
    · rw [suffixVal_writeLowBits, hval]

/-- Witness for C7 at `order = 28`, snapshot `[5]`, all-zero row with the
snapshot consumed: the suffix counter advances, setting bit 26 and
incrementing the suffix value. -/
theorem next_graph_suffix_counter_witness :
    ∃ row', next_graph [5] 28 (List.replicate 28 false) 1
        = some (row', 1) ∧
      row'.getD 26 false = true ∧
      suffixVal 28 row'
        = suffixVal 28 (List.replicate 28 false) + 1 := by
  obtain ⟨row', ha, hb, _, _, _, hf⟩ :=
    (next_graph_suffix_counter [5] 28 (List.replicate 28 false) 1
      (by decide) (by decide) (by decide)).2.1 26 (by decide) (by decide)
      (by decide)
      (fun j hj1 hj2 => absurd (Nat.lt_of_le_of_lt hj1 hj2)
        (lt_irrefl _))
  exact ⟨row', ha, hb, hf⟩

theorem suffixAdv_length (order : Nat) (row r' : List Bool)
    (h : suffixAdv order row = some r') : r'.length = row.length := by
  rw [suffixAdv] at h
  by_cases hc : (suffixLoop order row PERM_BLOCK_SIZE).2 = order - 1
  · rw [if_pos hc] at h
    exact absurd h (by simp)
  · rw [if_neg hc] at h
    have := Option.some.inj h
    rw [← this, List.length_set, suffixLoop_length]

theorem next_graph_cases (snap : List Nat) (order : Nat) (row : List Bool)
    (cursor : Nat) (hlen : row.length = order)
    (hord : PERM_BLOCK_SIZE < order) (hcur : cursor ≤ snap.length)
    (hsnap : 0 < snap.length) :
    next_graph snap order row cursor = none ∨
    ∃ row' cursor', next_graph snap order row cursor
        = some (row', cursor') ∧
      row'.length = order ∧ cursor' ≤ snap.length ∧
      searchMeasure snap order row' cursor'
        < searchMeasure snap order row cursor := by
  by_cases hc : cursor = snap.length
  · rw [next_graph, if_pos hc]
    cases hadv : suffixAdv order row with
    | none => exact Or.inl rfl
    | some r' =>
      refine Or.inr ⟨writeLowBits r' (snap.getD 0 0), 1, rfl, ?_, ?_, ?_⟩
      · rw [writeLowBits_length, suffixAdv_length order row r' hadv, hlen]
      · omega
      · have hval : suffixVal order r' = suffixVal order row + 1 := by
          by_cases hfull : suffixVal order row + 1
              = 2 ^ (order - 1 - PERM_BLOCK_SIZE)
          · have := (suffixAdv_none_iff order row hlen hord).mpr
              ((region_all_ones_iff order row).mpr hfull)
            rw [hadv] at this
            exact absurd this (by simp)
          · obtain ⟨r'', h'', _, hval''⟩ :=
              suffixAdv_of_not_full order row hlen hord hfull
            rw [hadv] at h''
            rw [Option.some.inj h'']
            exact hval''
        simp only [searchMeasure, suffixVal_writeLowBits, hval]
        have hv := suffixVal_lt order row
        have hmul : (2 ^ (order - 1 - PERM_BLOCK_SIZE)
              - suffixVal order row) * (snap.length + 1)
            = (2 ^ (order - 1 - PERM_BLOCK_SIZE)
                - (suffixVal order row + 1)) * (snap.length + 1)
              + (snap.length + 1) := by
          rw [show 2 ^ (order - 1 - PERM_BLOCK_SIZE) - suffixVal order row
            = (2 ^ (order - 1 - PERM_BLOCK_SIZE)
                - (suffixVal order row + 1)) + 1 by omega, Nat.succ_mul]
        omega
  · rw [next_graph, if_neg hc]
    refine Or.inr ⟨writeLowBits row (snap.getD cursor 0), cursor + 1, rfl,
      ?_, by omega, ?_⟩
    · rw [writeLowBits_length, hlen]
    · simp only [searchMeasure, suffixVal_writeLowBits]
      omega

/-- C10.  With an empty candidate-clique list the search loop can never
report success: the `monochromatic` flag enters each iteration `true` and
the clique-check loop leaves it untouched when there is no clique to
check, so every candidate coloring is treated as failed and, given enough
fuel to cover the whole space, the loop runs to exhaustion. -/
theorem searchLoop_empty_cliques_never_succeeds :
    ∀ (fuel : Nat) (snap : List Nat) (order : Nat) (row : List Bool)
      (cursor : Nat), row.length = order → PERM_BLOCK_SIZE < order →
      cursor ≤ snap.length → 0 < snap.length →
      isSuccess (searchLoop [] snap order fuel row cursor true) = false ∧
      (searchMeasure snap order row cursor < fuel →
        searchLoop [] snap order fuel row cursor true
          = SearchOutcome.exhausted) := by
  intro fuel
  induction fuel using Nat.strong_induction_on with
  | _ fuel ih =>
    intro snap order row cursor hlen hord hcur hsnap
    cases fuel with
    | zero =>
      exact ⟨rfl, fun h => absurd h (by omega)⟩
    | succ f =>
      rcases next_graph_cases snap order row cursor hlen hord hcur hsnap
        with hnone | ⟨row', cursor', heq, hlen', hcur', hmeas⟩
      · have hstep : searchLoop [] snap order (f + 1) row cursor true
            = SearchOutcome.exhausted := by
          rw [searchLoop, hnone]
        exact ⟨by rw [hstep]; rfl, fun _ => hstep⟩
      · have hstep : searchLoop [] snap order (f + 1) row cursor true
            = searchLoop [] snap order f row' cursor' true := by
          rw [searchLoop, heq]
          simp only [checkLoop]
          rw [if_neg (by decide)]
        obtain ⟨h1, h2⟩ := ih f (by omega) snap order row' cursor' hlen'
          hord hcur' hsnap
        exact ⟨by rw [hstep]; exact h1,
          fun h => by rw [hstep]; exact h2 (by omega)⟩

/-- Witness for C10 at `order = 28`, snapshot `[0]`, all-zero initial row:
with fuel covering the whole space the empty-clique-list search exhausts
without ever succeeding. -/
theorem searchLoop_empty_cliques_never_succeeds_witness :
    isSuccess (searchLoop [] [0] 28 6 (List.replicate 28 false) 0 true)
        = false ∧
    searchLoop [] [0] 28 6 (List.replicate 28 false) 0 true
        = SearchOutcome.exhausted := by
  obtain ⟨h1, h2⟩ := searchLoop_empty_cliques_never_succeeds 6 [0] 28
    (List.replicate 28 false) 0 (by decide) (by decide) (by decide)
    (by decide)
  exact ⟨h1, h2 (by decide)⟩

/-- C4 (code bug).  On success the program calls `dump_graph` directly
(line 711); nothing in `extend_graph.c` ever mirrors the new vertex's row
into its column, so the emitted matrix is asymmetric at the new vertex
whenever the found row is nonzero.  Here: order 28, zero base matrix, one
blue candidate clique, snapshot value 1; the search succeeds at the row
with bit 0 set, and the matrix handed to `dump_graph` has entry
`(27, 0) = 1` but entry `(0, 27) = 0` (the column keeps the
zero-initialization from `expand`). -/
theorem success_dump_is_not_mirrored :
    searchLoop [⟨[0, 1, 2, 3], true⟩] [1] 28 2 (List.replicate 28 false)
        0 true
      = SearchOutcome.success (writeLowBits (List.replicate 28 false) 1) ∧
    matrixWithRow (expand (fun _ _ => false) 27) 28
      (writeLowBits (List.replicate 28 false) 1) 27 0 = true ∧
    matrixWithRow (expand (fun _ _ => false) 27) 28
      (writeLowBits (List.replicate 28 false) 1) 0 27 = false := by
  refine ⟨by decide, ?_, ?_⟩
  · show (if (27 : Nat) = 28 - 1 then
      (writeLowBits (List.replicate 28 false) 1).getD 0 false else
      expand (fun _ _ => false) 27 27 0) = true
    decide
  · show (if (0 : Nat) = 28 - 1 then
      (writeLowBits (List.replicate 28 false) 1).getD 27 false else
      expand (fun _ _ => false) 27 0 27) = false
    decide

/-- C1 (code bug).  For every input matrix, `main` either aborts inside
the clique enumeration (whose `uint16_t` counter overflow is undefined
behavior, `none` in the model) or executes the unconditional `exit(0)` at
`extend_graph.c:652` immediately after the filtering phase: the snapshot
construction and the exhaustive search loop below it are dead code, so
the program reaches neither the success nor the exhaustion outcome. -/
theorem main_exits_after_filtering (matrix : Nat → Nat → Bool)
    (order : Nat) :
    mainAfterLoad matrix order = some MainOutcome.exitedAfterFilter ∨
    mainAfterLoad matrix order = none := by
  rw [mainAfterLoad]
  cases find_monochromatic_n_cliques matrix order (CLIQUE_N - 1) with
  | none => exact Or.inr rfl
  | some found => exact Or.inl rfl

theorem lex_trans : ∀ {l₁ l₂ l₃ : List Nat}, List.Lex (· < ·) l₁ l₂ →
    List.Lex (· < ·) l₂ l₃ → List.Lex (· < ·) l₁ l₃ := by
  intro l₁ l₂ l₃ h1
  induction h1 generalizing l₃ with
  | nil =>
    intro h2
    cases h2 with
    | cons _ => exact List.Lex.nil
    | rel _ => exact List.Lex.nil
  | cons h ih =>
    intro h2
    cases h2 with
    | cons h' => exact List.Lex.cons (ih h')
    | rel h' => exact List.Lex.rel h'
  | rel h =>
    intro h2
    cases h2 with
    | cons h' => exact List.Lex.rel h
    | rel h' => exact List.Lex.rel (Nat.lt_trans h h')

theorem validTuple_cons (sent c : Nat) (rest : List Nat) :
    validTuple sent (c :: rest) = true ↔
      c < headOr sent rest ∧ validTuple sent rest = true := by
  simp [validTuple]

theorem validTuple_lt_of_mem (sent : Nat) : ∀ (rest : List Nat) (c : Nat),
    validTuple sent (c :: rest) = true → ∀ x ∈ rest, c < x := by
  intro rest
  induction rest with
  | nil =>
    intro c _ x hx
    simp at hx
  | cons r rs ih =>
    intro c hv x hx
    rw [validTuple_cons] at hv
    rcases List.mem_cons.mp hx with rfl | hx'
    · exact hv.1
    · exact Nat.lt_trans hv.1 (ih r hv.2 x hx')

theorem validTuple_bound (sent : Nat) : ∀ (t : List Nat),
    validTuple sent t = true → ∀ x ∈ t, x < sent := by
  intro t
  induction t with
  | nil =>
    intro _ x hx
    simp at hx
  | cons c rest ih =>
    intro hv x hx
    rw [validTuple_cons] at hv
    rcases List.mem_cons.mp hx with rfl | hx'
    · cases rest with
      | nil => exact hv.1
      | cons r rs =>
        exact Nat.lt_trans hv.1 (ih hv.2 r (List.mem_cons_self _ _))
    · exact ih hv.2 x hx'

theorem validTuple_head_add_len (sent : Nat) : ∀ (rest : List Nat) (c : Nat),
    validTuple sent (c :: rest) = true → c + (c :: rest).length ≤ sent := by
  intro rest
  induction rest with
  | nil =>
    intro c hv
    rw [validTuple_cons] at hv
    have h1 : c < sent := hv.1
    simp
    omega
  | cons r rs ih =>
    intro c hv
    rw [validTuple_cons] at hv
    have h1 : c < r := hv.1
    have h2 := ih r hv.2
    simp only [List.length_cons] at h2 ⊢
    omega

theorem validTuple_range' (sent : Nat) : ∀ (n a : Nat), a + n ≤ sent →
    validTuple sent (List.range' a n) = true := by
  intro n
  induction n with
  | zero => intro a _; rfl
  | succ n ih =>
    intro a ha
    rw [List.range'_succ, validTuple_cons]
    refine ⟨?_, ih (a + 1) (by omega)⟩
    cases n with
    | zero =>
      show a < sent
      omega
    | succ m =>
      rw [List.range'_succ]
      show a < a + 1
      omega

theorem validTuple_range (sent n : Nat) (h : n ≤ sent) :
    validTuple sent (List.range n) = true := by
  rw [List.range_eq_range']
  exact validTuple_range' sent n 0 (by omega)

theorem next_n_clique_length (sent : Nat) : ∀ (c c' : List Nat),
    next_n_clique sent c = some c' → c'.length = c.length := by
  intro c
  induction c with
  | nil =>
    intro c' h
    exact absurd h (by simp [next_n_clique])
  | cons c rest ih =>
    intro c' h
    rw [next_n_clique] at h
    cases hnext : next_n_clique sent rest with
    | some rest' =>
      rw [hnext] at h
      rw [← Option.some.inj h, List.length_cons, List.length_cons,
        ih rest' hnext]
    | none =>
      rw [hnext] at h
      by_cases hc : c < headOr sent rest - 1
      · rw [if_pos hc] at h
        rw [← Option.some.inj h]
        simp
      · rw [if_neg hc] at h
        exact absurd h (by simp)

theorem range'_lex_le (sent : Nat) : ∀ (s : List Nat) (m : Nat),
    validTuple sent s = true → (∀ x ∈ s, m ≤ x) →
    List.range' m s.length = s ∨
      List.Lex (· < ·) (List.range' m s.length) s := by
  intro s
  induction s with
  | nil => intro m _ _; exact Or.inl rfl
  | cons b s' ih =>
    intro m hv0 hm
    have hv := (validTuple_cons sent b s').mp hv0
    rcases Nat.lt_or_ge m b with hlt | hge
    · right
      rw [List.length_cons, List.range'_succ]
      exact List.Lex.rel hlt
    · have hb : m = b := le_antisymm (hm b (List.mem_cons_self _ _)) hge
      subst hb
      rcases ih (m + 1) hv.2
          (fun x hx =>
            Nat.succ_le_of_lt (validTuple_lt_of_mem sent s' m hv0 x hx))
        with hlow | hlow
      · left
        rw [List.length_cons, List.range'_succ, hlow]
      · right
        rw [List.length_cons, List.range'_succ]
        exact List.Lex.cons hlow

theorem lex_le_max (sent : Nat) : ∀ (t : List Nat),
    validTuple sent t = true →
    t = List.range' (sent - t.length) t.length ∨
      List.Lex (· < ·) t (List.range' (sent - t.length) t.length) := by
  intro t
  induction t with
  | nil => intro _; exact Or.inl rfl
  | cons c rest ih =>
    intro hv0
    have hv := (validTuple_cons sent c rest).mp hv0
    have hlen := validTuple_head_add_len sent rest c hv0
    simp only [List.length_cons] at hlen ⊢
    rcases Nat.lt_or_ge c (sent - (rest.length + 1)) with hlt | hge
    · right
      rw [List.range'_succ]
      exact List.Lex.rel hlt
    · have hce : c = sent - (rest.length + 1) := by omega
      rcases ih hv.2 with heq | hlex
      · left
        rw [List.range'_succ, ← hce]
        congr 1
        rw [show c + 1 = sent - rest.length by omega]
        exact heq
      · right
        rw [List.range'_succ, ← hce,
          show c + 1 = sent - rest.length by omega]
        exact List.Lex.cons hlex

theorem next_none_eq_max (sent : Nat) : ∀ (c : List Nat),
    validTuple sent c = true → next_n_clique sent c = none →
    c = List.range' (sent - c.length) c.length := by
  intro c
  induction c with
  | nil => intro _ _; rfl
  | cons c rest ih =>
    intro hv0 hnone
    have hv := (validTuple_cons sent c rest).mp hv0
    rw [next_n_clique] at hnone
    cases hnext : next_n_clique sent rest with
    | some rest' =>
      rw [hnext] at hnone
      exact absurd hnone (by simp)
    | none =>
      rw [hnext] at hnone
      by_cases hc : c < headOr sent rest - 1
      · rw [if_pos hc] at hnone
        exact absurd hnone (by simp)
      · have hrest := ih hv.2 hnext
        have hlen := validTuple_head_add_len sent rest c hv0
        simp only [List.length_cons] at hlen ⊢
        cases rest with
        | nil =>
          have h1 : c < sent := hv.1
          have hc' : ¬ c < sent - 1 := hc
          have hce : c = sent - 1 := by omega
          rw [List.length_nil, List.range'_one, hce]
        | cons r rs =>
          simp only [List.length_cons] at hrest hlen ⊢
          rw [List.range'_succ] at hrest
          have hr : r = sent - (rs.length + 1) := (List.cons.inj hrest).1
          have hrs : rs = List.range' (sent - (rs.length + 1) + 1) rs.length :=
            (List.cons.inj hrest).2
          have h1 : c < r := hv.1
          have hc' : ¬ c < r - 1 := hc
          have hce : c = sent - (rs.length + 1 + 1) := by omega
          rw [List.range'_succ, ← hce]
          congr 1
          rw [show c + 1 = sent - (rs.length + 1) by omega, List.range'_succ]
          rw [← hr]
          congr 1
          rw [hr]
          exact hrs

theorem next_none_not_lt (sent : Nat) (c : List Nat)
    (hv : validTuple sent c = true) (hnone : next_n_clique sent c = none) :
    ∀ t, validTuple sent t = true → t.length = c.length →
      ¬ List.Lex (· < ·) c t := by
  intro t hvt hlen hlex
  have hc := next_none_eq_max sent c hv hnone
  rcases lex_le_max sent t hvt with heq | hlt
  · rw [hlen, ← hc] at heq
    subst heq
    exact (asymm hlex) hlex
  · rw [hlen, ← hc] at hlt
    exact (asymm hlex) hlt

theorem next_some_spec (sent : Nat) : ∀ (c c' : List Nat),
    validTuple sent c = true → next_n_clique sent c = some c' →
    validTuple sent c' = true ∧ List.Lex (· < ·) c c' ∧
    ∀ t, validTuple sent t = true → t.length = c.length →
      List.Lex (· < ·) c t → c' = t ∨ List.Lex (· < ·) c' t := by
  intro c
  induction c with
  | nil =>
    intro c' _ h
    exact absurd h (by simp [next_n_clique])
  | cons c rest ih =>
    intro c' hv0 hsome
    have hv := (validTuple_cons sent c rest).mp hv0
    rw [next_n_clique] at hsome
    cases hnext : next_n_clique sent rest with
    | some rest' =>
      rw [hnext] at hsome
      have hceq : c' = c :: rest' := (Option.some.inj hsome).symm
      subst hceq
      obtain ⟨hv', hlex, hmin⟩ := ih rest' hv.2 hnext
      obtain ⟨r, rs, rfl⟩ : ∃ r rs, rest = r :: rs := by
        cases rest with
        | nil => exact absurd hnext (by simp [next_n_clique])
        | cons r rs => exact ⟨r, rs, rfl⟩
      have hhead : c < headOr sent rest' := by
        cases hlex with
        | cons _ => exact hv.1
        | rel h => exact Nat.lt_trans hv.1 h
      refine ⟨?_, List.Lex.cons hlex, ?_⟩
      · rw [validTuple_cons]
        exact ⟨hhead, hv'⟩
      · intro t hvt hlent hlext
        obtain ⟨b, s, rfl⟩ : ∃ b s, t = b :: s := by
          cases t with
          | nil => cases hlext
          | cons b s => exact ⟨b, s, rfl⟩
        cases hlext with
        | cons hls =>
          have hvs : validTuple sent s = true :=
            ((validTuple_cons _ _ _).mp hvt).2
          have hlens : s.length = (r :: rs).length := by simpa using hlent
          rcases hmin s hvs hlens hls with heq | hlt
          · exact Or.inl (by rw [heq])
          · exact Or.inr (List.Lex.cons hlt)
        | rel hcb =>
          exact Or.inr (List.Lex.rel hcb)
    | none =>
      rw [hnext] at hsome
      by_cases hc : c < headOr sent rest - 1
      · rw [if_pos hc] at hsome
        have hceq : c' = (c + 1) :: List.range' (c + 2) rest.length :=
          (Option.some.inj hsome).symm
        subst hceq
        have hrest := next_none_eq_max sent rest hv.2 hnext
        have hho : headOr sent rest = sent - rest.length := by
          cases rest with
          | nil => simp [headOr]
          | cons r rs =>
            simp only [List.length_cons] at hrest ⊢
            rw [List.range'_succ] at hrest
            exact (List.cons.inj hrest).1
        have harith : c + 2 + rest.length ≤ sent := by
          rw [hho] at hc
          omega
        have hcrange : (c + 1) :: List.range' (c + 2) rest.length
            = List.range' (c + 1) (rest.length + 1) := by
          rw [List.range'_succ]
        refine ⟨?_, List.Lex.rel (Nat.lt_succ_self c), ?_⟩
        · rw [hcrange]
          exact validTuple_range' sent (rest.length + 1) (c + 1) (by omega)
        · intro t hvt hlent hlext
          obtain ⟨b, s, rfl⟩ : ∃ b s, t = b :: s := by
            cases t with
            | nil => cases hlext
            | cons b s => exact ⟨b, s, rfl⟩
          cases hlext with
          | cons hls =>
            have hvs : validTuple sent s = true :=
              ((validTuple_cons _ _ _).mp hvt).2
            have hlens : s.length = rest.length := by simpa using hlent
            exact absurd hls
              (next_none_not_lt sent rest hv.2 hnext s hvs hlens)
          | rel hcb =>
            rcases Nat.lt_or_ge (c + 1) b with hlt | hge2
            · exact Or.inr (List.Lex.rel hlt)
            · have hbe : b = c + 1 := by omega
              subst hbe
              have hvs : validTuple sent s = true :=
                ((validTuple_cons _ _ _).mp hvt).2
              have hlens : s.length = rest.length := by simpa using hlent
              have hmem : ∀ x ∈ s, c + 2 ≤ x := fun x hx =>
                Nat.succ_le_of_lt
                  (validTuple_lt_of_mem sent s (c + 1) hvt x hx)
              rcases range'_lex_le sent s (c + 2) hvs hmem with heq | hlow
              · rw [hlens] at heq
                exact Or.inl (by rw [heq])
              · rw [hlens] at hlow
                exact Or.inr (List.Lex.cons hlow)
      · rw [if_neg hc] at hsome
        exact absurd hsome (by simp)

theorem mem_combosFrom (sent : Nat) : ∀ (n a : Nat) (t : List Nat),
    t ∈ combosFrom sent n a ↔
      t.length = n ∧ validTuple sent t = true ∧ ∀ x ∈ t, a ≤ x := by
  intro n
  induction n with
  | zero =>
    intro a t
    simp only [combosFrom, List.mem_singleton]
    constructor
    · rintro rfl
      exact ⟨rfl, rfl, by simp⟩
    · rintro ⟨hlen, _, _⟩
      exact List.length_eq_zero.mp hlen
  | succ n ih =>
    intro a t
    simp only [combosFrom, List.mem_flatten, List.mem_map]
    constructor
    · rintro ⟨l, ⟨cv, hcv, rfl⟩, hmem⟩
      obtain ⟨t', ht', rfl⟩ := List.mem_map.mp hmem
      obtain ⟨hlen, hvalid, hge⟩ := (ih (cv + 1) t').mp ht'
      rw [List.mem_range'_1] at hcv
      refine ⟨by simp [hlen], ?_, ?_⟩
      · rw [validTuple_cons]
        refine ⟨?_, hvalid⟩
        cases t' with
        | nil =>
          show cv < sent
          omega
        | cons h hs =>
          show cv < h
          have := hge h (List.mem_cons_self _ _)
          omega
      · intro x hx
        rcases List.mem_cons.mp hx with rfl | hx'
        · exact hcv.1
        · have := hge x hx'
          have := hcv.1
          omega
    · rintro ⟨hlen, hvalid, hge⟩
      obtain ⟨cv, t', rfl⟩ : ∃ cv t', t = cv :: t' := by
        cases t with
        | nil => simp at hlen
        | cons cv t' => exact ⟨cv, t', rfl⟩
      have hv := (validTuple_cons sent cv t').mp hvalid
      have hcs : cv < sent :=
        validTuple_bound sent _ hvalid cv (List.mem_cons_self _ _)
      have hacv : a ≤ cv := hge cv (List.mem_cons_self _ _)
      refine ⟨(combosFrom sent n (cv + 1)).map (fun t => cv :: t),
        ⟨cv, List.mem_range'_1.mpr ⟨hacv, by omega⟩, rfl⟩, ?_⟩
      refine List.mem_map.mpr ⟨t', (ih (cv + 1) t').mpr
        ⟨by simpa using hlen, hv.2, ?_⟩, rfl⟩
      exact fun x hx =>
        Nat.succ_le_of_lt (validTuple_lt_of_mem sent t' cv hvalid x hx)

theorem pairwise_combosFrom (sent : Nat) : ∀ (n a : Nat),
    List.Pairwise (List.Lex (· < ·)) (combosFrom sent n a) := by
  intro n
  induction n with
  | zero => intro a; simp [combosFrom]
  | succ n ih =>
    intro a
    rw [combosFrom, List.pairwise_flatten]
    constructor
    · intro l hl
      obtain ⟨cv, _, rfl⟩ := List.mem_map.mp hl
      rw [List.pairwise_map]
      exact (ih (cv + 1)).imp fun h => List.Lex.cons h
    · rw [List.pairwise_map]
      refine (List.pairwise_lt_range' a (sent - a) 1).imp ?_
      intro c₁ c₂ hlt x hx y hy
      obtain ⟨t₁, _, rfl⟩ := List.mem_map.mp hx
      obtain ⟨t₂, _, rfl⟩ := List.mem_map.mp hy
      exact List.Lex.rel hlt

theorem nodup_combosFrom (sent n a : Nat) : (combosFrom sent n a).Nodup :=
  (pairwise_combosFrom sent n a).imp fun h heq => by
    subst heq
    exact (asymm h) h

theorem combosFrom_succ_split (sent n a : Nat) (h : a < sent) :
    combosFrom sent (n + 1) a
      = (combosFrom sent n (a + 1)).map (fun t => a :: t)
        ++ combosFrom sent (n + 1) (a + 1) := by
  conv_lhs => rw [combosFrom]
  conv_rhs => rw [combosFrom]
  rw [show sent - a = (sent - (a + 1)) + 1 by omega, List.range'_succ,
    List.map_cons, List.flatten_cons]

theorem length_combosFrom (sent : Nat) : ∀ (d n a : Nat), sent - a = d →
    (combosFrom sent n a).length = Nat.choose d n := by
  intro d
  induction d with
  | zero =>
    intro n a hd
    cases n with
    | zero => simp [combosFrom]
    | succ n =>
      rw [combosFrom, hd]
      simp
  | succ d ihd =>
    intro n a hd
    cases n with
    | zero => simp [combosFrom]
    | succ n =>
      rw [combosFrom_succ_split sent n a (by omega), List.length_append,
        List.length_map, ihd n (a + 1) (by omega),
        ihd (n + 1) (a + 1) (by omega), Nat.choose_succ_succ]

theorem cliqueRun_eq_suffix (sent n : Nat) :
    ∀ (post pre : List (List Nat)) (c : List Nat) (fuel : Nat),
    combosFrom sent n 0 = pre ++ c :: post →
    post.length + 1 ≤ fuel →
    cliqueRun sent fuel c = c :: post := by
  intro post
  induction post with
  | nil =>
    intro pre c fuel hsplit hfuel
    have hcmem : c ∈ combosFrom sent n 0 := by rw [hsplit]; simp
    obtain ⟨hclen, hcvalid, _⟩ := (mem_combosFrom sent n 0 c).mp hcmem
    have hnone : next_n_clique sent c = none := by
      cases hnext : next_n_clique sent c with
      | none => rfl
      | some c' =>
        exfalso
        obtain ⟨hv', hlex, _⟩ := next_some_spec sent c c' hcvalid hnext
        have hlen' := next_n_clique_length sent c c' hnext
        have hc'mem : c' ∈ combosFrom sent n 0 :=
          (mem_combosFrom sent n 0 c').mpr
            ⟨by omega, hv', fun x _ => Nat.zero_le x⟩
        rw [hsplit] at hc'mem
        have hsorted := pairwise_combosFrom sent n 0
        rw [hsplit] at hsorted
        rcases List.mem_append.mp hc'mem with hpre | hcons
        · have := (List.pairwise_append.mp hsorted).2.2 c' hpre c (by simp)
          exact (asymm hlex) this
        · rcases List.mem_cons.mp hcons with rfl | h2
          · exact (asymm hlex) hlex
          · simp at h2
    obtain ⟨f, rfl⟩ : ∃ f, fuel = f + 1 := ⟨fuel - 1, by omega⟩
    rw [cliqueRun, hnone]
  | cons d post' ih =>
    intro pre c fuel hsplit hfuel
    have hcmem : c ∈ combosFrom sent n 0 := by rw [hsplit]; simp
    obtain ⟨hclen, hcvalid, _⟩ := (mem_combosFrom sent n 0 c).mp hcmem
    have hdmem : d ∈ combosFrom sent n 0 := by rw [hsplit]; simp
    obtain ⟨hdlen, hdvalid, _⟩ := (mem_combosFrom sent n 0 d).mp hdmem
    have hsorted := pairwise_combosFrom sent n 0
    rw [hsplit] at hsorted
    have hpa := List.pairwise_append.mp hsorted
    have hlexcd : List.Lex (· < ·) c d :=
      (List.pairwise_cons.mp hpa.2.1).1 d (by simp)
    cases hnext : next_n_clique sent c with
    | none =>
      exact absurd hlexcd
        (next_none_not_lt sent c hcvalid hnext d hdvalid (by omega))
    | some c' =>
      obtain ⟨hv', hlex, hmin⟩ := next_some_spec sent c c' hcvalid hnext
      have hlen' := next_n_clique_length sent c c' hnext
      have hcd : c' = d := by
        rcases hmin d hdvalid (by omega) hlexcd with heq | hlt
        · exact heq
        · exfalso
          have hc'mem : c' ∈ combosFrom sent n 0 :=
            (mem_combosFrom sent n 0 c').mpr
              ⟨by omega, hv', fun x _ => Nat.zero_le x⟩
          rw [hsplit] at hc'mem
          rcases List.mem_append.mp hc'mem with hpre | hcons
          · have := hpa.2.2 c' hpre c (by simp)
            exact (asymm hlex) this
          · rcases List.mem_cons.mp hcons with rfl | h2
            · exact (asymm hlex) hlex
            · rcases List.mem_cons.mp h2 with rfl | h3
              · exact (asymm hlt) hlt
              · have hpc := List.pairwise_cons.mp hpa.2.1
                have hpd := List.pairwise_cons.mp hpc.2
                exact (asymm hlt) (hpd.1 c' h3)
      subst hcd
      obtain ⟨f, rfl⟩ : ∃ f, fuel = f + 1 := ⟨fuel - 1, by omega⟩
      rw [cliqueRun, hnext]
      have hrec := ih (pre ++ [c]) c' f (by rw [hsplit]; simp)
        (by simp at hfuel ⊢; omega)
      show c :: cliqueRun sent f c' = c :: c' :: post'
      rw [hrec]
theorem find_go_eq (matrix : Nat → Nat → Bool) (sent : Nat) :
    ∀ (fuel : Nat) (cur : List Nat) (acc : List (List Nat)) (count : Nat),
    count < 65536 →
    find_go matrix sent fuel cur acc count
      = if count + ((cliqueRun sent fuel cur).filter
            (is_n_monochromatic matrix)).length < 65536 then
          some (acc ++ (cliqueRun sent fuel cur).filter
              (is_n_monochromatic matrix),
            count + ((cliqueRun sent fuel cur).filter
              (is_n_monochromatic matrix)).length)
        else none := by
  intro fuel
  induction fuel with
  | zero =>
    intro cur acc count hcount
    simp [find_go, cliqueRun, hcount]
  | succ fuel ih =>
    intro cur acc count hcount
    rw [find_go, cliqueRun]
    cases hnext : next_n_clique sent cur with
    | none =>
      by_cases hm : is_n_monochromatic matrix cur
      · by_cases hw : count + 1 < 65536
        · have hmod : (count + 1) % 65536 = count + 1 :=
            Nat.mod_eq_of_lt hw
          simp [hnext, hm, hmod, hw]
        · have h65 : count = 65535 := by omega
          subst h65
          simp [hnext, hm]
      · simp [hnext, hm, hcount]
    | some nxt =>
      by_cases hm : is_n_monochromatic matrix cur
      · by_cases hw : count + 1 < 65536
        · have hmod : (count + 1) % 65536 = count + 1 :=
            Nat.mod_eq_of_lt hw
          simp only [hnext, hm, if_true, hmod, Nat.succ_ne_zero,
            if_false, List.filter_cons_of_pos hm, List.length_cons]
          rw [ih nxt (acc ++ [cur]) (count + 1) hw]
          by_cases hc : count + 1 + ((cliqueRun sent fuel nxt).filter
              (is_n_monochromatic matrix)).length < 65536
          · rw [if_pos hc, if_pos (by omega)]
            simp only [Option.some.injEq, Prod.mk.injEq]
            constructor
            · simp
            · omega
          · rw [if_neg hc, if_neg (by omega)]
        · have h65 : count = 65535 := by omega
          subst h65
          simp only [hnext, hm, if_true, List.filter_cons_of_pos hm,
            List.length_cons]
          rw [if_neg (by omega)]
      · simp only [hnext, hm, if_false, List.filter_cons_of_neg
          (by simpa using hm)]
        exact ih nxt acc count hcount

theorem combosFrom_head (sent n : Nat) (hn : n ≤ sent) :
    ∃ tail, combosFrom sent n 0 = List.range n :: tail ∧
      tail.length + 1 = Nat.choose sent n := by
  have hlen : (combosFrom sent n 0).length = Nat.choose sent n := by
    simpa using length_combosFrom sent (sent - 0) n 0 rfl
  have hpos : 0 < Nat.choose sent n := Nat.choose_pos hn
  obtain ⟨h, tail, hht⟩ : ∃ h tail, combosFrom sent n 0 = h :: tail := by
    cases hc : combosFrom sent n 0 with
    | nil => rw [hc] at hlen; simp at hlen; omega
    | cons h tail => exact ⟨h, tail, rfl⟩
  have hmem_range : List.range n ∈ combosFrom sent n 0 :=
    (mem_combosFrom sent n 0 _).mpr ⟨List.length_range n,
      validTuple_range sent n hn, fun x _ => Nat.zero_le x⟩
  have hhmem : h ∈ combosFrom sent n 0 := by
    rw [hht]; exact List.mem_cons_self _ _
  obtain ⟨hhlen, hhvalid, _⟩ := (mem_combosFrom sent n 0 h).mp hhmem
  have hlow := range'_lex_le sent h 0 hhvalid (fun x _ => Nat.zero_le x)
  rw [hhlen, ← List.range_eq_range'] at hlow
  rcases hlow with heq | hlex
  · refine ⟨tail, by rw [hht, ← heq], ?_⟩
    rw [hht] at hlen
    simp at hlen
    omega
  · exfalso
    rw [hht] at hmem_range
    rcases List.mem_cons.mp hmem_range with heq2 | htail
    · rw [heq2] at hlex
      exact (asymm hlex) hlex
    · have hsorted := pairwise_combosFrom sent n 0
      rw [hht] at hsorted
      exact (asymm hlex) ((List.pairwise_cons.mp hsorted).1 _ htail)

theorem monoPairs_zero : ∀ (cc : Bool) (cl : List Nat),
    monoPairs (fun _ _ => false) cc cl = true ∨ cc = true := by
  intro cc
  cases cc with
  | true => exact fun _ => Or.inr rfl
  | false =>
    intro cl
    left
    induction cl with
    | nil => rfl
    | cons c rest ih =>
      rw [monoPairs]
      simp [ih]

theorem is_n_monochromatic_zero (cl : List Nat) :
    is_n_monochromatic (fun _ _ => false) cl = true := by
  rw [is_n_monochromatic]
  rcases monoPairs_zero false cl with h | h
  · exact h
  · exact absurd h (by decide)

/-- C5 (code bug).  The enumeration claim fails on the code: the clique
counter in `find_monochromatic_n_cliques` is a `uint16_t`.  On the
all-red matrix of order 363 with `n = 2` every one of the visited pairs
is monochromatic and there are `C(363,2) = 65703 ≥ 2^16` of them (second
conjunct), so at the 65536th one `count++` wraps to zero,
`realloc(cliques, 0)` releases the clique array and the code writes
`cliques[count - 1]`, i.e. `cliques[-1]` — an out-of-bounds write,
undefined behavior, `none` in the model (first conjunct): the function
never returns the 65703 subsets together with their count as the claim
promises.  The successor logic itself is sound (`next_n_clique` visits
exactly the increasing tuples, in lexicographic order, each once — see
`cliqueRun_eq_suffix`, `length_combosFrom`, `pairwise_combosFrom`,
`nodup_combosFrom`, `mem_combosFrom`); the defect is the 16-bit counter
that drives the `realloc` size and the store index. -/
theorem find_monochromatic_count_overflow :
    find_monochromatic_n_cliques (fun _ _ => false) 363 2 = none ∧
    ((cliqueRun 363 (Nat.choose 363 2 + 1) (List.range 2)).filter
        (is_n_monochromatic (fun _ _ => false))).length = 65703 := by
  have hfilter : ∀ l : List (List Nat),
      l.filter (is_n_monochromatic (fun _ _ => false)) = l := fun l =>
    List.filter_eq_self.mpr fun a _ => is_n_monochromatic_zero a
  have hlen : (combosFrom 363 2 0).length = Nat.choose 363 2 := by
    simpa using length_combosFrom 363 (363 - 0) 2 0 rfl
  obtain ⟨tail, hht, htl⟩ := combosFrom_head 363 2 (by omega)
  have hrun : cliqueRun 363 (Nat.choose 363 2 + 1) (List.range 2)
      = combosFrom 363 2 0 := by
    rw [hht]
    exact cliqueRun_eq_suffix 363 2 tail [] (List.range 2) _
      (by rw [List.nil_append]; exact hht) (by omega)
  have hch : Nat.choose 363 2 = 65703 := by rw [Nat.choose_two_right]
  constructor
  · rw [find_monochromatic_n_cliques,
      find_go_eq _ 363 _ _ _ _ (by omega), hrun, hfilter, hlen, hch]
    rw [if_neg (by omega)]
  · rw [hrun, hfilter, hlen, hch]

theorem chase_none (arena : List PermNode) (fuel : Nat) :
    chaseVals arena fuel none = [] := by
  cases fuel <;> rfl

theorem repChain_cons_iff (arena : List PermNode) (lb : Nat)
    (prevSlot : Option Nat) (i v : Nat) (vs : List Nat) :
    repChain arena lb prevSlot (some i) (v :: vs) = true ↔
      lb ≤ i ∧ ∃ nd, arena[i]? = some nd ∧ nd.perm = v ∧
        nd.prev = prevSlot ∧
        repChain arena (i + 1) (some i) nd.next vs = true := by
  rw [repChain]
  constructor
  · intro h
    rw [Bool.and_eq_true, decide_eq_true_eq] at h
    refine ⟨h.1, ?_⟩
    have h2 := h.2
    cases harena : arena[i]? with
    | none =>
      rw [harena] at h2
      exact absurd h2 (by simp)
    | some nd =>
      rw [harena] at h2
      rw [Bool.and_eq_true, Bool.and_eq_true, beq_iff_eq, beq_iff_eq] at h2
      exact ⟨nd, rfl, h2.1.1, h2.1.2, h2.2⟩
  · rintro ⟨hlb, nd, harena, hperm, hprev, hrec⟩
    rw [Bool.and_eq_true, decide_eq_true_eq]
    refine ⟨hlb, ?_⟩
    rw [harena, Bool.and_eq_true, Bool.and_eq_true, beq_iff_eq, beq_iff_eq]
    exact ⟨⟨hperm, hprev⟩, hrec⟩

theorem movedChain_cons (arena : List PermNode) (i : Nat)
    (pEnd : Option Nat) (v : Nat) (vs : List Nat) :
    movedChain arena i pEnd (v :: vs)
      = (match arena[i]? with
        | none => false
        | some nd =>
          nd.perm == v &&
          nd.prev == (if i = 0 then none else some (i - 1)) &&
          nd.next == (match vs with | [] => pEnd | _ :: _ => some (i + 1)) &&
            movedChain arena (i + 1) pEnd vs) := rfl

theorem movedChain_cons_iff (arena : List PermNode) (i : Nat)
    (pEnd : Option Nat) (v : Nat) (vs : List Nat) :
    movedChain arena i pEnd (v :: vs) = true ↔
      ∃ nd, arena[i]? = some nd ∧ nd.perm = v ∧
        nd.prev = (if i = 0 then none else some (i - 1)) ∧
        nd.next = (match vs with | [] => pEnd | _ :: _ => some (i + 1)) ∧
        movedChain arena (i + 1) pEnd vs = true := by
  rw [movedChain_cons]
  constructor
  · intro h
    cases harena : arena[i]? with
    | none =>
      rw [harena] at h
      exact absurd h (by simp)
    | some nd =>
      rw [harena] at h
      rw [Bool.and_eq_true, Bool.and_eq_true, Bool.and_eq_true,
        beq_iff_eq, beq_iff_eq, beq_iff_eq] at h
      exact ⟨nd, rfl, h.1.1.1, h.1.1.2, h.1.2, h.2⟩
  · rintro ⟨nd, harena, hperm, hprev, hnext, hrec⟩
    rw [harena, Bool.and_eq_true, Bool.and_eq_true, Bool.and_eq_true,
      beq_iff_eq, beq_iff_eq, beq_iff_eq]
    exact ⟨⟨⟨hperm, hprev⟩, hnext⟩, hrec⟩

theorem chase_repChain : ∀ (vs : List Nat) (arena : List PermNode)
    (lb : Nat) (prevSlot cur : Option Nat) (fuel : Nat),
    repChain arena lb prevSlot cur vs = true → vs.length + 1 ≤ fuel →
    chaseVals arena fuel cur = vs := by
  intro vs
  induction vs with
  | nil =>
    intro arena lb prevSlot cur fuel hrep _
    cases cur with
    | none => exact chase_none arena fuel
    | some i => simp [repChain] at hrep
  | cons v vs ih =>
    intro arena lb prevSlot cur fuel hrep hfuel
    cases cur with
    | none => simp [repChain] at hrep
    | some i =>
      obtain ⟨f, rfl⟩ : ∃ f, fuel = f + 1 := ⟨fuel - 1, by omega⟩
      obtain ⟨_, nd, harena, hperm, _, hrec⟩ :=
        (repChain_cons_iff arena lb prevSlot i v vs).mp hrep
      simp only [chaseVals, harena]
      rw [hperm, ih arena (i + 1) (some i) nd.next f hrec
        (by simpa using hfuel)]

theorem chase_movedChain : ∀ (vs : List Nat) (v : Nat)
    (arena : List PermNode) (i fuel : Nat),
    movedChain arena i none (v :: vs) = true → vs.length + 2 ≤ fuel →
    chaseVals arena fuel (some i) = v :: vs := by
  intro vs
  induction vs with
  | nil =>
    intro v arena i fuel hmc hfuel
    obtain ⟨f, rfl⟩ : ∃ f, fuel = f + 1 := ⟨fuel - 1, by omega⟩
    obtain ⟨nd, harena, hperm, _, hnext, _⟩ :=
      (movedChain_cons_iff arena i none v []).mp hmc
    simp only [chaseVals, harena]
    rw [hperm, hnext, chase_none]
  | cons v' vs' ih =>
    intro v arena i fuel hmc hfuel
    obtain ⟨f, rfl⟩ : ∃ f, fuel = f + 1 := ⟨fuel - 1, by omega⟩
    obtain ⟨nd, harena, hperm, _, hnext, hrec⟩ :=
      (movedChain_cons_iff arena i none v (v' :: vs')).mp hmc
    simp only [chaseVals, harena]
    rw [hperm, hnext, ih v' arena (i + 1) f hrec (by simpa using hfuel)]

theorem repChain_set_lt : ∀ (vs : List Nat) (arena : List PermNode)
    (m : Nat) (x : PermNode) (lb : Nat) (prevSlot cur : Option Nat),
    m < lb →
    repChain (arena.set m x) lb prevSlot cur vs
      = repChain arena lb prevSlot cur vs := by
  intro vs
  induction vs with
  | nil =>
    intro arena m x lb prevSlot cur _
    cases cur <;> rfl
  | cons v vs ih =>
    intro arena m x lb prevSlot cur hm
    cases cur with
    | none => rfl
    | some i =>
      rw [repChain, repChain]
      by_cases hlb : lb ≤ i
      · rw [List.getElem?_set_ne (by omega : m ≠ i)]
        cases harena : arena[i]? with
        | none => rfl
        | some nd =>
          exact congrArg
            (fun b => decide (lb ≤ i) &&
              (nd.perm == v && nd.prev == prevSlot && b))
            (ih arena m x (i + 1) (some i) nd.next (by omega))
      · simp [hlb]

theorem movedChain_congr : ∀ (vs : List Nat) (arena arena' : List PermNode)
    (i : Nat) (pEnd : Option Nat),
    (∀ s, i ≤ s → s < i + vs.length → arena'[s]? = arena[s]?) →
    movedChain arena i pEnd vs = movedChain arena' i pEnd vs := by
  intro vs
  induction vs with
  | nil => intro _ _ _ _ _; rfl
  | cons v vs ih =>
    intro arena arena' i pEnd hagree
    rw [movedChain_cons, movedChain_cons,
      hagree i le_rfl (by simp)]
    cases harena : arena[i]? with
    | none => rfl
    | some nd =>
      exact congrArg
        (fun b => nd.perm == v &&
          nd.prev == (if i = 0 then none else some (i - 1)) &&
          nd.next == (match vs with | [] => pEnd | _ :: _ => some (i + 1))
          && b)
        (ih arena arena' (i + 1) pEnd
          (fun s hs1 hs2 => hagree s (by omega) (by simp at hs2 ⊢; omega)))

theorem movedChain_setNext_last : ∀ (vsD : List Nat) (i : Nat)
    (arena : List PermNode) (pi : Nat) (q : Option Nat),
    movedChain arena i (some pi) vsD = true → vsD ≠ [] →
    movedChain (setNextAt arena (i + vsD.length - 1) q) i q vsD = true := by
  intro vsD
  induction vsD with
  | nil => intro _ _ _ _ _ h; exact absurd rfl h
  | cons v vsD' ih =>
    intro i arena pi q hmc _
    obtain ⟨nd, harena, hperm, hprev, hnext, hrec⟩ :=
      (movedChain_cons_iff arena i (some pi) v vsD').mp hmc
    cases vsD' with
    | nil =>
      have hidx : i + (v :: ([] : List Nat)).length - 1 = i := by simp
      rw [hidx]
      have hset : setNextAt arena i q = arena.set i { nd with next := q } := by
        rw [setNextAt, harena]
      rw [hset]
      refine (movedChain_cons_iff _ i q v []).mpr
        ⟨{ nd with next := q }, ?_, hperm, hprev, rfl, rfl⟩
      have hi : i < arena.length := by
        rcases List.getElem?_eq_some.mp harena with ⟨h, _⟩
        exact h
      exact List.getElem?_set_eq_of_lt _ hi
    | cons v' vsD'' =>
      have hidx : i + (v :: v' :: vsD'').length - 1
          = (i + 1) + (v' :: vsD'').length - 1 := by simp; omega
      rw [hidx]
      have hlast_ne : (i + 1) + (v' :: vsD'').length - 1 ≠ i := by
        simp; omega
      refine (movedChain_cons_iff _ i q v (v' :: vsD'')).mpr
        ⟨nd, ?_, hperm, hprev, hnext, ih (i + 1) arena pi q hrec (by simp)⟩
      rw [setNextAt]
      cases hget : arena[(i + 1) + (v' :: vsD'').length - 1]? with
      | none => exact harena
      | some nd2 => rw [List.getElem?_set_ne hlast_ne]; exact harena

theorem movedChain_append : ∀ (vs1 vs2 : List Nat)
    (arena : List PermNode) (i : Nat) (pEnd : Option Nat),
    movedChain arena i (some (i + vs1.length)) vs1 = true →
    movedChain arena (i + vs1.length) pEnd vs2 = true →
    vs2 ≠ [] →
    movedChain arena i pEnd (vs1 ++ vs2) = true := by
  intro vs1
  induction vs1 with
  | nil =>
    intro vs2 arena i pEnd _ h2 _
    simpa using h2
  | cons v vs1' ih =>
    intro vs2 arena i pEnd h1 h2 hne
    obtain ⟨nd, harena, hperm, hprev, hnext, hrec⟩ :=
      (movedChain_cons_iff arena i _ v vs1').mp h1
    rw [List.cons_append]
    refine (movedChain_cons_iff arena i pEnd v (vs1' ++ vs2)).mpr
      ⟨nd, harena, hperm, hprev, ?_, ?_⟩
    · cases hv1 : vs1' with
      | nil =>
        cases hv2 : vs2 with
        | nil => exact absurd hv2 hne
        | cons w ws =>
          rw [hv1] at hnext
          simp only [hv1, List.nil_append, hv2]
          rw [hnext]
          simp
      | cons w ws =>
        rw [hv1] at hnext
        simp only [hv1, List.cons_append]
        exact hnext
    · have := ih vs2 arena (i + 1) pEnd ?_ ?_ hne
      · exact this
      · have harith : (i + 1) + vs1'.length = i + (v :: vs1').length := by
          simp; omega
        rw [harith]
        exact hrec
      · have harith : (i + 1) + vs1'.length = i + (v :: vs1').length := by
          simp; omega
        rw [harith]
        exact h2

theorem getElem?_setPrevAt_ne (arena : List PermNode) (k : Nat)
    (pr : Option Nat) (m : Nat) (hkm : k ≠ m) :
    (setPrevAt arena k pr)[m]? = arena[m]? := by
  rw [setPrevAt]
  cases h : arena[k]? with
  | none => rfl
  | some nd => exact List.getElem?_set_ne hkm

theorem getElem?_setNextAt_ne (arena : List PermNode) (k : Nat)
    (nx : Option Nat) (m : Nat) (hkm : k ≠ m) :
    (setNextAt arena k nx)[m]? = arena[m]? := by
  rw [setNextAt]
  cases h : arena[k]? with
  | none => rfl
  | some nd => exact List.getElem?_set_ne hkm

theorem repChain_setNextAt_lt (vs : List Nat) (arena : List PermNode)
    (k : Nat) (nx : Option Nat) (lb : Nat) (prevSlot cur : Option Nat)
    (hk : k < lb) :
    repChain (setNextAt arena k nx) lb prevSlot cur vs
      = repChain arena lb prevSlot cur vs := by
  rw [setNextAt]
  cases h : arena[k]? with
  | none => rfl
  | some nd => exact repChain_set_lt vs arena k _ lb prevSlot cur hk

theorem repChain_mono_lb (arena : List PermNode) (lb lb' : Nat)
    (prevSlot cur : Option Nat) (vs : List Nat)
    (h : repChain arena lb prevSlot cur vs = true) (hle : lb' ≤ lb) :
    repChain arena lb' prevSlot cur vs = true := by
  cases cur with
  | none => cases vs <;> exact h
  | some i =>
    cases vs with
    | nil => simp [repChain] at h
    | cons v vs =>
      obtain ⟨hlbi, nd, harena, hperm, hprev, hrec⟩ :=
        (repChain_cons_iff arena lb prevSlot i v vs).mp h
      exact (repChain_cons_iff arena lb' prevSlot i v vs).mpr
        ⟨le_trans hle hlbi, nd, harena, hperm, hprev, hrec⟩

theorem repChain_setPrev_head (arena : List PermNode) (lb : Nat)
    (ps ps' : Option Nat) (k v : Nat) (vs : List Nat)
    (h : repChain arena lb ps (some k) (v :: vs) = true) :
    repChain (setPrevAt arena k ps') lb ps' (some k) (v :: vs) = true := by
  obtain ⟨hlb, nd, harena, hperm, hprev, hrec⟩ :=
    (repChain_cons_iff arena lb ps k v vs).mp h
  have hset : setPrevAt arena k ps' = arena.set k { nd with prev := ps' } := by
    rw [setPrevAt, harena]
  rw [hset]
  refine (repChain_cons_iff _ lb ps' k v vs).mpr
    ⟨hlb, { nd with prev := ps' }, ?_, hperm, rfl, ?_⟩
  · have hk : k < arena.length := (List.getElem?_eq_some.mp harena).1
    exact List.getElem?_set_eq_of_lt _ hk
  · rw [repChain_set_lt vs arena k _ (k + 1) (some k) _ (by omega)]
    exact hrec

theorem repChain_length_le : ∀ (vs : List Nat) (arena : List PermNode)
    (lb : Nat) (ps cur : Option Nat),
    repChain arena lb ps cur vs = true →
    vs = [] ∨ lb + vs.length ≤ arena.length := by
  intro vs
  induction vs with
  | nil => intro _ _ _ _ _; exact Or.inl rfl
  | cons v vs ih =>
    intro arena lb ps cur h
    cases cur with
    | none => simp [repChain] at h
    | some i =>
      obtain ⟨hlb, nd, harena, _, _, hrec⟩ :=
        (repChain_cons_iff arena lb ps i v vs).mp h
      have hi : i < arena.length := (List.getElem?_eq_some.mp harena).1
      refine Or.inr ?_
      rcases ih arena (i + 1) (some i) nd.next hrec with h0 | hlen
      · subst h0; simp; omega
      · simp; omega

theorem regroupLoop_none (fuel : Nat) (arena : List PermNode)
    (head : Option Nat) (j : Nat) :
    regroupLoop (fuel + 1) arena head j none = (arena, head) := rfl

theorem regroupLoop_succ (fuel : Nat) (arena : List PermNode)
    (head : Option Nat) (j pi : Nat) :
    regroupLoop (fuel + 1) arena head j (some pi)
      = match arena[pi]? with
        | none => (arena, head)
        | some nd =>
          let arena1 := arena.set j nd
          let arena2 := match nd.next with
            | some k => setPrevAt arena1 k (some j)
            | none => arena1
          match nd.prev with
          | some k =>
            let arena3 := setNextAt arena2 k (some j)
            regroupLoop fuel arena3 head (j + 1)
              ((arena3[j]?).bind fun m => m.next)
          | none =>
            regroupLoop fuel arena2 (some j) (j + 1)
              ((arena2[j]?).bind fun m => m.next) := rfl

theorem regroupLoop_spec : ∀ (vs vsDone : List Nat) (arena : List PermNode)
    (head : Option Nat) (j : Nat) (p : Option Nat) (fuel : Nat),
    repChain arena j (if j = 0 then none else some (j - 1)) p vs = true →
    movedChain arena 0 p vsDone = true →
    vsDone.length = j →
    (j ≠ 0 → head = some 0) →
    vs.length + 1 ≤ fuel →
    movedChain (regroupLoop fuel arena head j p).1 0 none (vsDone ++ vs)
      = true ∧
    (vsDone ++ vs ≠ [] → (regroupLoop fuel arena head j p).2 = some 0) := by
  intro vs
  induction vs with
  | nil =>
    intro vsDone arena head j p fuel hrep hmc hlen hhead hfuel
    have hf1 : 1 ≤ fuel := by simpa using hfuel
    obtain ⟨f, rfl⟩ : ∃ f, fuel = f + 1 := ⟨fuel - 1, by omega⟩
    cases p with
    | some pi => simp [repChain] at hrep
    | none =>
      rw [regroupLoop_none]
      constructor
      · simpa using hmc
      · intro hne
        refine hhead fun hj0 => ?_
        apply hne
        rw [hj0] at hlen
        rw [List.length_eq_zero.mp hlen]
        rfl
  | cons v vs' ih =>
    intro vsDone arena head j p fuel hrep hmc hlen hhead hfuel
    have hfuel' : vs'.length + 2 ≤ fuel := by simpa using hfuel
    obtain ⟨f, rfl⟩ : ∃ f, fuel = f + 1 := ⟨fuel - 1, by omega⟩
    cases p with
    | none => simp [repChain] at hrep
    | some pi =>
      obtain ⟨hjpi, nd, harena, hperm, hprev, hrec⟩ :=
        (repChain_cons_iff arena j _ pi v vs').mp hrep
      have hpilen : pi < arena.length := (List.getElem?_eq_some.mp harena).1
      have hjlen : j < arena.length := by omega
      have harena1j : (arena.set j nd)[j]? = some nd :=
        List.getElem?_set_eq_of_lt _ hjlen
      by_cases hj : j = 0
      · subst hj
        have hprev0 : nd.prev = none := by simp [hprev]
        have hvd : vsDone = [] := List.length_eq_zero.mp hlen
        subst hvd
        cases hn : nd.next with
        | none =>
          have hvs' : vs' = [] := by
            cases vs' with
            | nil => rfl
            | cons a b => rw [hn] at hrec; simp [repChain] at hrec
          subst hvs'
          simp only [regroupLoop_succ, harena, hprev0, hn]
          have hparg : ((arena.set 0 nd)[0]?).bind (fun m => m.next)
              = nd.next := by rw [harena1j]; rfl
          rw [hparg, hn]
          have hf1 : 1 ≤ f := by simp at hfuel'; omega
          obtain ⟨f', rfl⟩ : ∃ f', f = f' + 1 := ⟨f - 1, by omega⟩
          rw [regroupLoop_none]
          constructor
          · refine (movedChain_cons_iff _ 0 none v []).mpr
              ⟨nd, harena1j, hperm, ?_, ?_, rfl⟩
            · rw [if_pos rfl]; exact hprev0
            · exact hn
          · intro _; rfl
        | some k =>
          cases vs' with
          | nil => rw [hn] at hrec; simp [repChain] at hrec
          | cons v' vs'' =>
            rw [hn] at hrec
            have hrecA : repChain (arena.set 0 nd) (pi + 1) (some pi)
                (some k) (v' :: vs'') = true := by
              rw [repChain_set_lt _ arena 0 nd (pi + 1) _ _ (by omega)]
              exact hrec
            have hk : pi + 1 ≤ k :=
              ((repChain_cons_iff _ (pi + 1) (some pi) k v' vs'').mp
                hrecA).1
            have hrecB : repChain (setPrevAt (arena.set 0 nd) k (some 0))
                (pi + 1) (some 0) (some k) (v' :: vs'') = true :=
              repChain_setPrev_head _ (pi + 1) (some pi) (some 0) k v'
                vs'' hrecA
            have harena2j : (setPrevAt (arena.set 0 nd) k (some 0))[0]?
                = some nd := by
              rw [getElem?_setPrevAt_ne _ k _ 0 (by omega)]
              exact harena1j
            simp only [regroupLoop_succ, harena, hprev0, hn]
            have hparg : ((setPrevAt (arena.set 0 nd) k
                  (some 0))[0]?).bind (fun m => m.next) = nd.next := by
              rw [harena2j]; rfl
            rw [hparg, hn]
            have h1 : repChain (setPrevAt (arena.set 0 nd) k (some 0)) 1
                (if 1 = 0 then none else some (1 - 1)) (some k)
                (v' :: vs'') = true := by
              rw [if_neg (by omega)]
              exact repChain_mono_lb _ (pi + 1) 1 _ _ _ hrecB (by omega)
            have h2 : movedChain (setPrevAt (arena.set 0 nd) k (some 0)) 0
                (some k) ([] ++ [v]) = true := by
              refine (movedChain_cons_iff _ 0 (some k) v []).mpr
                ⟨nd, harena2j, hperm, ?_, ?_, rfl⟩
              · rw [if_pos rfl]; exact hprev0
              · exact hn
            have h5 : (v' :: vs'').length + 1 ≤ f := by
              simp at hfuel' ⊢; omega
            have hmain := ih ([] ++ [v]) _ (some 0) 1 (some k) f h1 h2
              (by simp) (fun _ => rfl) h5
            exact ⟨hmain.1, fun _ => hmain.2 (by simp)⟩
      · have hprev' : nd.prev = some (j - 1) := by rw [hprev, if_neg hj]
        have hvdne : vsDone ≠ [] := by
          intro h0
          apply hj
          rw [h0] at hlen
          simpa using hlen.symm
        cases hn : nd.next with
        | none =>
          have hvs' : vs' = [] := by
            cases vs' with
            | nil => rfl
            | cons a b => rw [hn] at hrec; simp [repChain] at hrec
          subst hvs'
          simp only [regroupLoop_succ, harena, hprev', hn]
          have harena3j : (setNextAt (arena.set j nd) (j - 1)
              (some j))[j]? = some nd := by
            rw [getElem?_setNextAt_ne _ (j - 1) _ j (by omega)]
            exact harena1j
          have hparg : ((setNextAt (arena.set j nd) (j - 1)
                (some j))[j]?).bind (fun m => m.next) = nd.next := by
            rw [harena3j]; rfl
          rw [hparg, hn]
          have hf1 : 1 ≤ f := by simp at hfuel'; omega
          obtain ⟨f', rfl⟩ : ∃ f', f = f' + 1 := ⟨f - 1, by omega⟩
          rw [regroupLoop_none]
          have hag : ∀ s, 0 ≤ s → s < 0 + vsDone.length →
              (arena.set j nd)[s]? = arena[s]? := by
            intro s _ hs
            exact List.getElem?_set_ne (by omega : j ≠ s)
          have hmcA : movedChain (arena.set j nd) 0 (some pi) vsDone
              = true := by
            rw [← movedChain_congr vsDone arena _ 0 (some pi) hag]
            exact hmc
          have hmcB := movedChain_setNext_last vsDone 0 (arena.set j nd)
            pi (some j) hmcA hvdne
          have hidx : 0 + vsDone.length - 1 = j - 1 := by omega
          rw [hidx] at hmcB
          have hnode : movedChain (setNextAt (arena.set j nd) (j - 1)
              (some j)) j nd.next [v] = true := by
            refine (movedChain_cons_iff _ j nd.next v []).mpr
              ⟨nd, harena3j, hperm, ?_, rfl, rfl⟩
            rw [if_neg hj]; exact hprev'
          have h2 : movedChain (setNextAt (arena.set j nd) (j - 1)
              (some j)) 0 nd.next (vsDone ++ [v]) = true := by
            refine movedChain_append vsDone [v] _ 0 nd.next ?_ ?_
              (by simp)
            · rw [show (0 + vsDone.length : Nat) = j from by omega]
              exact hmcB
            · rw [show (0 + vsDone.length : Nat) = j from by omega]
              exact hnode
          rw [hn] at h2
          exact ⟨h2, fun _ => hhead hj⟩
        | some k =>
          cases vs' with
          | nil => rw [hn] at hrec; simp [repChain] at hrec
          | cons v' vs'' =>
            rw [hn] at hrec
            have hrecA : repChain (arena.set j nd) (pi + 1) (some pi)
                (some k) (v' :: vs'') = true := by
              rw [repChain_set_lt _ arena j nd (pi + 1) _ _ (by omega)]
              exact hrec
            have hk : pi + 1 ≤ k :=
              ((repChain_cons_iff _ (pi + 1) (some pi) k v' vs'').mp
                hrecA).1
            have hrecB : repChain (setPrevAt (arena.set j nd) k (some j))
                (pi + 1) (some j) (some k) (v' :: vs'') = true :=
              repChain_setPrev_head _ (pi + 1) (some pi) (some j) k v'
                vs'' hrecA
            have hrecC : repChain (setNextAt (setPrevAt (arena.set j nd)
                k (some j)) (j - 1) (some j)) (pi + 1) (some j) (some k)
                (v' :: vs'') = true := by
              rw [repChain_setNextAt_lt _ _ (j - 1) _ (pi + 1) _ _
                (by omega)]
              exact hrecB
            have harena2j : (setPrevAt (arena.set j nd) k (some j))[j]?
                = some nd := by
              rw [getElem?_setPrevAt_ne _ k _ j (by omega)]
              exact harena1j
            have harena3j : (setNextAt (setPrevAt (arena.set j nd) k
                (some j)) (j - 1) (some j))[j]? = some nd := by
              rw [getElem?_setNextAt_ne _ (j - 1) _ j (by omega)]
              exact harena2j
            simp only [regroupLoop_succ, harena, hprev', hn]
            have hparg : ((setNextAt (setPrevAt (arena.set j nd) k
                  (some j)) (j - 1) (some j))[j]?).bind
                (fun m => m.next) = nd.next := by
              rw [harena3j]; rfl
            rw [hparg, hn]
            have hag : ∀ s, 0 ≤ s → s < 0 + vsDone.length →
                (setPrevAt (arena.set j nd) k (some j))[s]?
                  = arena[s]? := by
              intro s _ hs
              rw [getElem?_setPrevAt_ne _ k _ s (by omega)]
              exact List.getElem?_set_ne (by omega : j ≠ s)
            have hmcA : movedChain (setPrevAt (arena.set j nd) k
                (some j)) 0 (some pi) vsDone = true := by
              rw [← movedChain_congr vsDone arena _ 0 (some pi) hag]
              exact hmc
            have hmcB := movedChain_setNext_last vsDone 0
              (setPrevAt (arena.set j nd) k (some j)) pi (some j) hmcA
              hvdne
            have hidx : 0 + vsDone.length - 1 = j - 1 := by omega
            rw [hidx] at hmcB
            have hnode : movedChain (setNextAt (setPrevAt (arena.set j nd)
                k (some j)) (j - 1) (some j)) j nd.next [v] = true := by
              refine (movedChain_cons_iff _ j nd.next v []).mpr
                ⟨nd, harena3j, hperm, ?_, rfl, rfl⟩
              rw [if_neg hj]; exact hprev'
            have h2 : movedChain (setNextAt (setPrevAt (arena.set j nd)
                k (some j)) (j - 1) (some j)) 0 nd.next (vsDone ++ [v])
                = true := by
              refine movedChain_append vsDone [v] _ 0 nd.next ?_ ?_
                (by simp)
              · rw [show (0 + vsDone.length : Nat) = j from by omega]
                exact hmcB
              · rw [show (0 + vsDone.length : Nat) = j from by omega]
                exact hnode
            rw [hn] at h2
            have h1 : repChain (setNextAt (setPrevAt (arena.set j nd) k
                (some j)) (j - 1) (some j)) (j + 1)
                (if j + 1 = 0 then none else some (j + 1 - 1)) (some k)
                (v' :: vs'') = true := by
              rw [if_neg (by omega)]
              exact repChain_mono_lb _ (pi + 1) (j + 1) _ _ _ hrecC
                (by omega)
            have h5 : (v' :: vs'').length + 1 ≤ f := by
              simp at hfuel' ⊢; omega
            have hmain := ih (vsDone ++ [v]) _ head (j + 1) (some k) f h1
              h2 (by simp [hlen]) (fun _ => hhead hj) h5
            have hl : (vsDone ++ [v]) ++ v' :: vs''
                = vsDone ++ v :: v' :: vs'' := by simp
            rw [hl] at hmain
            exact ⟨hmain.1, fun _ => hmain.2 (by simp)⟩

/-- C8.  `perm_regroup` has no semantic effect: for a well-formed live
list (chain slots strictly increasing, the invariant the program
maintains), the sequence of permutation values reachable from `perm_head`
is identical before and after the call, and `perm_count` is untouched. -/
theorem perm_regroup_preserves (st : PermState) (vs : List Nat)
    (hrep : repChain st.arena 0 none st.head vs = true) :
    chaseVals (perm_regroup st).arena (vs.length + 1)
      (perm_regroup st).head = vs ∧
    chaseVals st.arena (vs.length + 1) st.head = vs ∧
    (perm_regroup st).count = st.count := by
  refine ⟨?_,
    chase_repChain vs st.arena 0 none st.head (vs.length + 1) hrep
      le_rfl, rfl⟩
  cases vs with
  | nil =>
    have hh : st.head = none := by
      cases hh : st.head with
      | none => rfl
      | some i => rw [hh] at hrep; simp [repChain] at hrep
    simp only [perm_regroup, hh, regroupLoop_none]
    exact chase_none _ _
  | cons v vs' =>
    have hlenle : (v :: vs').length ≤ st.arena.length := by
      rcases repChain_length_le (v :: vs') st.arena 0 none st.head hrep
        with h0 | h
      · exact absurd h0 (by simp)
      · simpa using h
    have hspec := regroupLoop_spec (v :: vs') [] st.arena st.head 0
      st.head (st.arena.length + 1) (by simpa using hrep) rfl rfl
      (fun h => absurd rfl h) (by simp at hlenle ⊢; omega)
    obtain ⟨hmoved, hhead0⟩ := hspec
    have hh0 : (regroupLoop (st.arena.length + 1) st.arena st.head 0
        st.head).2 = some 0 := hhead0 (by simp)
    have hmoved' : movedChain (regroupLoop (st.arena.length + 1) st.arena
        st.head 0 st.head).1 0 none (v :: vs') = true := by
      simpa using hmoved
    simp only [perm_regroup, hh0]
    exact chase_movedChain vs' v _ 0 _ hmoved' (by simp)

theorem perm_regroup_preserves_witness :
    repChain regroupWitnessState.arena 0 none regroupWitnessState.head
        [10, 20] = true ∧
    (chaseVals (perm_regroup regroupWitnessState).arena
        ([10, 20].length + 1) (perm_regroup regroupWitnessState).head
        = [10, 20] ∧
      chaseVals regroupWitnessState.arena ([10, 20].length + 1)
        regroupWitnessState.head = [10, 20] ∧
      (perm_regroup regroupWitnessState).count
        = regroupWitnessState.count) :=
  ⟨by decide,
    perm_regroup_preserves regroupWitnessState [10, 20] (by decide)⟩

/-- C9.  Input reading: both `load_matrix` variants populate the flat
row-major matrix with exactly the sequence of `'0'`/`'1'` characters of the
stream (every other byte ignored), and fail fatally if and only if the
number of `'0'`/`'1'` characters differs from `order²`. -/
theorem load_matrix_reads_binary_chars (order : Nat) (input : List Char) :
    load_matrix order input =
      (if (input.filterMap charBit).length = order * order then
        some (input.filterMap charBit) else none) ∧
    load_matrix_fc order input =
      (if (input.filterMap charBit).length = order * order then
        some (input.filterMap charBit) else none) := by
  constructor
  · have := load_go_spec order input 0 [] rfl (Nat.zero_le _)
    simpa [load_matrix] using this
  · have := load_go_fc_spec order input 0 [] rfl
    simpa [load_matrix_fc] using this

end Ramsey
